import Mathlib

/-!
A verification development for the UV-unwrapping pipeline
(topology construction, seam detection, island extraction, LSCM
parameterization, island packing).

The C++ sources are shallowly embedded: machine floats become exact
rationals (`ℚ`), C `int` becomes `ℤ`/`ℕ`, raw arrays become lists or
functions, `NULL`-able pointers become `Option`, and the `-1` sentinel for
"no face" is kept as a literal `-1 : ℤ`.  The Eigen sparse solver is
modelled as an exact linear solve; sparse matrices are kept as triplet
lists, mirroring Eigen's triplet assembly.  `std::sort` (an unspecified,
unstable comparison sort) is modelled by `List.insertionSort`, which
realizes one permitted execution; `std::map` iteration order (sorted by
key) is reproduced by sorting the association list by key.
-/

namespace Unwrap

/-- A triangle mesh: vertex count, triangle list (three vertex indices
each) and the per-vertex UV array (`mesh->uvs`), modelled as a total
function from vertex index to a UV pair.  Vertex 3D positions are not
carried: no embedded computation below reads them (they only feed the
LSCM numeric assembly and pin choice, which are abstracted). -/
structure Mesh where
  numVertices : ℕ
  triangles : List (ℕ × ℕ × ℕ)
  uvs : ℕ → ℚ × ℚ

/-- Edge-adjacency structure from `topology.h`: for every unique
undirected edge, its canonicalized endpoints `(v0, v1)` with `v0 ≤ v1`
and the two incident faces `(face0, face1)`, `-1` meaning "none".
The list position of an entry is the edge index. -/
structure TopologyInfo where
  edges : List ((ℕ × ℕ) × (ℤ × ℤ))

/-- Number of edges (`topo->num_edges`). -/
def TopologyInfo.numEdges (t : TopologyInfo) : ℕ := t.edges.length

/-- Endpoints of edge `e` (`topo->edges[e*2], topo->edges[e*2+1]`). -/
def TopologyInfo.ends (t : TopologyInfo) (e : ℕ) : ℕ × ℕ :=
  ((t.edges.getD e ((0, 0), (-1, -1))).1)

/-- Incident faces of edge `e`
(`topo->edge_faces[e*2], topo->edge_faces[e*2+1]`). -/
def TopologyInfo.faces (t : TopologyInfo) (e : ℕ) : ℤ × ℤ :=
  ((t.edges.getD e ((0, 0), (-1, -1))).2)

/-- `Edge::Edge(a, b)` from `topology.cpp`: always store the smaller
vertex first. -/
def edgeKey (a b : ℕ) : ℕ × ℕ := if a < b then (a, b) else (b, a)

/-- The three canonical edge keys of a triangle, in the source's order
`(v0,v1), (v1,v2), (v2,v0)`. -/
def triEdgeKeys (t : ℕ × ℕ × ℕ) : List (ℕ × ℕ) :=
  [edgeKey t.1 t.2.1, edgeKey t.2.1 t.2.2, edgeKey t.2.2 t.1]

/-- One insertion step of `build_topology`'s edge map: a new edge records
`face0 = f`, an existing edge records (overwrites) `face1 = f`. -/
def recordEdge (m : List ((ℕ × ℕ) × (ℤ × ℤ))) (k : ℕ × ℕ) (f : ℤ) :
    List ((ℕ × ℕ) × (ℤ × ℤ)) :=
  if m.any (fun p => p.1 = k) then
    m.map (fun p => if p.1 = k then (p.1, (p.2.1, f)) else p)
  else
    m ++ [(k, (f, -1))]

/-- The edge map of `build_topology` as an association list, built by
folding over all triangles and their three edges. -/
def buildEdgeMap (tris : List (ℕ × ℕ × ℕ)) : List ((ℕ × ℕ) × (ℤ × ℤ)) :=
  tris.enum.foldl
    (fun m ft => (triEdgeKeys ft.2).foldl (fun m' k => recordEdge m' k (ft.1 : ℤ)) m)
    []

/-- Key order used to reproduce `std::map<Edge, EdgeInfo>` iteration
order (lexicographic on the canonical endpoint pair). -/
def edgeEntryLE (p q : (ℕ × ℕ) × (ℤ × ℤ)) : Prop :=
  p.1.1 < q.1.1 ∨ (p.1.1 = q.1.1 ∧ p.1.2 ≤ q.1.2)

instance : DecidableRel edgeEntryLE := fun p q => by
  unfold edgeEntryLE; infer_instance

/-- `build_topology` from `topology.cpp`: `NULL` mesh gives no topology,
otherwise the deduplicated edge list in `std::map` (key-sorted) order. -/
def build_topology : Option Mesh → Option TopologyInfo
  | none => none
  | some m => some ⟨(buildEdgeMap m.triangles).insertionSort edgeEntryLE⟩

/-- The empty mesh: zero vertices, zero triangles. -/
def emptyMesh : Mesh := ⟨0, [], fun _ => (0, 0)⟩

/-- C8 counterexample: on the empty mesh (zero vertices and zero
triangles) `build_topology` does produce a topology structure — only the
`NULL` pointer is rejected — so the claim "empty mesh input → no
topology" is false on the code. -/
theorem claim_C8_counterexample :
    (build_topology (some emptyMesh)).isSome = true := rfl

/-- C8 (amended): a null mesh yields no topology; every non-null mesh —
the empty mesh included — yields a topology, and a mesh with no
triangles yields one with zero edges. -/
theorem claim_C8_amended :
    build_topology none = none ∧
    (∀ m : Mesh, (build_topology (some m)).isSome) ∧
    (∀ m : Mesh, m.triangles = [] → build_topology (some m) = some ⟨[]⟩) := by
  refine ⟨rfl, fun m => rfl, fun m hm => ?_⟩
  simp [build_topology, buildEdgeMap, hm, List.insertionSort]

/-- C8 amended-claim witness at the empty mesh. -/
theorem claim_C8_witness :
    emptyMesh.triangles = [] ∧ build_topology (some emptyMesh) = some ⟨[]⟩ :=
  ⟨rfl, claim_C8_amended.2.2 emptyMesh rfl⟩

/-! ### `normalize_uvs_to_unit_square` (`lscm.cpp`, lines 93–127) -/

/-- The `1e-6f` degeneracy guard of `normalize_uvs_to_unit_square`. -/
def rangeEps : ℚ := 1 / 1000000

/-- `min_u` of the bounding-box scan of `normalize_uvs_to_unit_square`.
(The C code seeds the fold with `FLT_MAX`, the identity of `min`;
seeding with the first element is the same fold.) -/
def uvMinU (p : ℚ × ℚ) (rest : List (ℚ × ℚ)) : ℚ :=
  rest.foldl (fun a q => min a q.1) p.1

/-- `max_u` of the bounding-box scan. -/
def uvMaxU (p : ℚ × ℚ) (rest : List (ℚ × ℚ)) : ℚ :=
  rest.foldl (fun a q => max a q.1) p.1

/-- `min_v` of the bounding-box scan. -/
def uvMinV (p : ℚ × ℚ) (rest : List (ℚ × ℚ)) : ℚ :=
  rest.foldl (fun a q => min a q.2) p.2

/-- `max_v` of the bounding-box scan. -/
def uvMaxV (p : ℚ × ℚ) (rest : List (ℚ × ℚ)) : ℚ :=
  rest.foldl (fun a q => max a q.2) p.2

/-- `u_range` after the `1e-6` degeneracy substitution. -/
def uvRangeU (p : ℚ × ℚ) (rest : List (ℚ × ℚ)) : ℚ :=
  if uvMaxU p rest - uvMinU p rest < rangeEps then 1
  else uvMaxU p rest - uvMinU p rest

/-- `v_range` after the `1e-6` degeneracy substitution. -/
def uvRangeV (p : ℚ × ℚ) (rest : List (ℚ × ℚ)) : ℚ :=
  if uvMaxV p rest - uvMinV p rest < rangeEps then 1
  else uvMaxV p rest - uvMinV p rest

/-- `scale = 1.0f / max_float(u_range, v_range)`. -/
def uvScale (p : ℚ × ℚ) (rest : List (ℚ × ℚ)) : ℚ :=
  1 / max (uvRangeU p rest) (uvRangeV p rest)

/-- `normalize_uvs_to_unit_square` from `lscm.cpp`: compute the bounding
box of the UV list, substitute 1 for a degenerate extent, and rescale
uniformly by `1 / max(u_range, v_range)` after translating the minimum
corner to the origin.  An empty array is returned unchanged. -/
def normalize_uvs_to_unit_square : List (ℚ × ℚ) → List (ℚ × ℚ)
  | [] => []
  | p :: rest =>
      (p :: rest).map (fun q =>
        ((q.1 - uvMinU p rest) * uvScale p rest,
         (q.2 - uvMinV p rest) * uvScale p rest))

/-- Folding `min` only lowers the seed. -/
theorem foldl_min_le_init (l : List ℚ) (a : ℚ) : l.foldl min a ≤ a := by
  induction l generalizing a with
  | nil => exact le_refl a
  | cons x l ih => exact le_trans (ih (min a x)) (min_le_left a x)

/-- Folding `max` only raises the seed. -/
theorem init_le_foldl_max (l : List ℚ) (a : ℚ) : a ≤ l.foldl max a := by
  induction l generalizing a with
  | nil => exact le_refl a
  | cons x l ih => exact le_trans (le_max_left a x) (ih (max a x))

/-- A `min`-fold commutes with the affine map `x ↦ (x - c) * s`, `s ≥ 0`. -/
theorem foldl_min_map_affine (l : List ℚ) (a c s : ℚ) (hs : 0 ≤ s) :
    (l.map (fun x => (x - c) * s)).foldl min ((a - c) * s) =
      (l.foldl min a - c) * s := by
  induction l generalizing a with
  | nil => rfl
  | cons x l ih =>
      simp only [List.map_cons, List.foldl_cons]
      rw [← min_mul_of_nonneg _ _ hs, min_sub_sub_right, ih]

/-- A `max`-fold commutes with the affine map `x ↦ (x - c) * s`, `s ≥ 0`. -/
theorem foldl_max_map_affine (l : List ℚ) (a c s : ℚ) (hs : 0 ≤ s) :
    (l.map (fun x => (x - c) * s)).foldl max ((a - c) * s) =
      (l.foldl max a - c) * s := by
  induction l generalizing a with
  | nil => rfl
  | cons x l ih =>
      simp only [List.map_cons, List.foldl_cons]
      rw [← max_mul_of_nonneg _ _ hs, max_sub_sub_right, ih]

/-- Bounding-box scans after the affine remap done by one normalization
pass: the `min_u` scan of the remapped data. -/
theorem uvMinU_affine (p : ℚ × ℚ) (rest : List (ℚ × ℚ)) (c cv s : ℚ)
    (hs : 0 ≤ s) :
    uvMinU ((p.1 - c) * s, (p.2 - cv) * s)
      (rest.map (fun q => ((q.1 - c) * s, (q.2 - cv) * s))) =
      (uvMinU p rest - c) * s := by
  unfold uvMinU
  have h1 : ∀ (l : List (ℚ × ℚ)) (z : ℚ),
      l.foldl (fun a q => min a q.1) z = (l.map Prod.fst).foldl min z := by
    intro l z; rw [List.foldl_map]
  rw [h1, List.map_map]
  have h2 : (Prod.fst ∘ fun q : ℚ × ℚ => ((q.1 - c) * s, (q.2 - cv) * s)) =
      (fun x => (x - c) * s) ∘ Prod.fst := rfl
  rw [h2, ← List.map_map, foldl_min_map_affine _ _ _ _ hs, h1]

/-- The `max_u` scan of the remapped data. -/
theorem uvMaxU_affine (p : ℚ × ℚ) (rest : List (ℚ × ℚ)) (c cv s : ℚ)
    (hs : 0 ≤ s) :
    uvMaxU ((p.1 - c) * s, (p.2 - cv) * s)
      (rest.map (fun q => ((q.1 - c) * s, (q.2 - cv) * s))) =
      (uvMaxU p rest - c) * s := by
  unfold uvMaxU
  have h1 : ∀ (l : List (ℚ × ℚ)) (z : ℚ),
      l.foldl (fun a q => max a q.1) z = (l.map Prod.fst).foldl max z := by
    intro l z; rw [List.foldl_map]
  rw [h1, List.map_map]
  have h2 : (Prod.fst ∘ fun q : ℚ × ℚ => ((q.1 - c) * s, (q.2 - cv) * s)) =
      (fun x => (x - c) * s) ∘ Prod.fst := rfl
  rw [h2, ← List.map_map, foldl_max_map_affine _ _ _ _ hs, h1]

/-- The `min_v` scan of the remapped data. -/
theorem uvMinV_affine (p : ℚ × ℚ) (rest : List (ℚ × ℚ)) (c cv s : ℚ)
    (hs : 0 ≤ s) :
    uvMinV ((p.1 - c) * s, (p.2 - cv) * s)
      (rest.map (fun q => ((q.1 - c) * s, (q.2 - cv) * s))) =
      (uvMinV p rest - cv) * s := by
  unfold uvMinV
  have h1 : ∀ (l : List (ℚ × ℚ)) (z : ℚ),
      l.foldl (fun a q => min a q.2) z = (l.map Prod.snd).foldl min z := by
    intro l z; rw [List.foldl_map]
  rw [h1, List.map_map]
  have h2 : (Prod.snd ∘ fun q : ℚ × ℚ => ((q.1 - c) * s, (q.2 - cv) * s)) =
      (fun x => (x - cv) * s) ∘ Prod.snd := rfl
  rw [h2, ← List.map_map, foldl_min_map_affine _ _ _ _ hs, h1]

/-- The `max_v` scan of the remapped data. -/
theorem uvMaxV_affine (p : ℚ × ℚ) (rest : List (ℚ × ℚ)) (c cv s : ℚ)
    (hs : 0 ≤ s) :
    uvMaxV ((p.1 - c) * s, (p.2 - cv) * s)
      (rest.map (fun q => ((q.1 - c) * s, (q.2 - cv) * s))) =
      (uvMaxV p rest - cv) * s := by
  unfold uvMaxV
  have h1 : ∀ (l : List (ℚ × ℚ)) (z : ℚ),
      l.foldl (fun a q => max a q.2) z = (l.map Prod.snd).foldl max z := by
    intro l z; rw [List.foldl_map]
  rw [h1, List.map_map]
  have h2 : (Prod.snd ∘ fun q : ℚ × ℚ => ((q.1 - c) * s, (q.2 - cv) * s)) =
      (fun x => (x - cv) * s) ∘ Prod.snd := rfl
  rw [h2, ← List.map_map, foldl_max_map_affine _ _ _ _ hs, h1]

/-- The bounding box is well-formed: `min_u ≤ max_u`. -/
theorem uvMinU_le_uvMaxU (p : ℚ × ℚ) (rest : List (ℚ × ℚ)) :
    uvMinU p rest ≤ uvMaxU p rest := by
  unfold uvMinU uvMaxU
  rw [show rest.foldl (fun a q => min a q.1) p.1 =
        (rest.map Prod.fst).foldl min p.1 from (List.foldl_map _ _ _ _).symm,
      show rest.foldl (fun a q => max a q.1) p.1 =
        (rest.map Prod.fst).foldl max p.1 from (List.foldl_map _ _ _ _).symm]
  exact le_trans (foldl_min_le_init _ _) (init_le_foldl_max _ _)

/-- The bounding box is well-formed: `min_v ≤ max_v`. -/
theorem uvMinV_le_uvMaxV (p : ℚ × ℚ) (rest : List (ℚ × ℚ)) :
    uvMinV p rest ≤ uvMaxV p rest := by
  unfold uvMinV uvMaxV
  rw [show rest.foldl (fun a q => min a q.2) p.2 =
        (rest.map Prod.snd).foldl min p.2 from (List.foldl_map _ _ _ _).symm,
      show rest.foldl (fun a q => max a q.2) p.2 =
        (rest.map Prod.snd).foldl max p.2 from (List.foldl_map _ _ _ _).symm]
  exact le_trans (foldl_min_le_init _ _) (init_le_foldl_max _ _)

/-- Both substituted ranges are positive. -/
theorem uvRangeU_pos (p : ℚ × ℚ) (rest : List (ℚ × ℚ)) :
    0 < uvRangeU p rest := by
  unfold uvRangeU
  split
  · exact one_pos
  · next h => have := uvMinU_le_uvMaxU p rest
              have heps : (0 : ℚ) < rangeEps := by norm_num [rangeEps]
              linarith [not_lt.mp h]

/-- Both substituted ranges are positive (v component). -/
theorem uvRangeV_pos (p : ℚ × ℚ) (rest : List (ℚ × ℚ)) :
    0 < uvRangeV p rest := by
  unfold uvRangeV
  split
  · exact one_pos
  · next h => have := uvMinV_le_uvMaxV p rest
              have heps : (0 : ℚ) < rangeEps := by norm_num [rangeEps]
              linarith [not_lt.mp h]

/-- The uniform scale factor is positive. -/
theorem uvScale_pos (p : ℚ × ℚ) (rest : List (ℚ × ℚ)) :
    0 < uvScale p rest := by
  unfold uvScale
  exact one_div_pos.mpr (lt_of_lt_of_le (uvRangeU_pos p rest) (le_max_left _ _))

/-- C9: for every non-empty UV array, applying
`normalize_uvs_to_unit_square` twice yields the same result as applying
it once — the second pass finds the minimum corner at the origin and a
substituted range whose maximum is exactly 1, so it rescales by 1. -/
theorem claim_C9_normalize_idempotent (uvs : List (ℚ × ℚ)) (h : uvs ≠ []) :
    normalize_uvs_to_unit_square (normalize_uvs_to_unit_square uvs) =
      normalize_uvs_to_unit_square uvs := by
  obtain ⟨p, rest, rfl⟩ := List.exists_cons_of_ne_nil h
  have hs : 0 < uvScale p rest := uvScale_pos p rest
  have hs0 : (0 : ℚ) ≤ uvScale p rest := le_of_lt hs
  set c := uvMinU p rest with hc
  set cv := uvMinV p rest with hcv
  set s := uvScale p rest with hsdef
  set rU := uvMaxU p rest - c with hrU
  set rV := uvMaxV p rest - cv with hrV
  have hrU0 : 0 ≤ rU := by rw [hrU, hc]; linarith [uvMinU_le_uvMaxU p rest]
  have hrV0 : 0 ≤ rV := by rw [hrV, hcv]; linarith [uvMinV_le_uvMaxV p rest]
  have hRU : uvRangeU p rest = if rU < rangeEps then 1 else rU := rfl
  have hRV : uvRangeV p rest = if rV < rangeEps then 1 else rV := rfl
  have heps1 : rangeEps ≤ 1 := by norm_num [rangeEps]
  have heps0 : (0 : ℚ) < rangeEps := by norm_num [rangeEps]
  have hmaxR_pos : 0 < max (uvRangeU p rest) (uvRangeV p rest) :=
    lt_of_lt_of_le (uvRangeU_pos p rest) (le_max_left _ _)
  have h1 : normalize_uvs_to_unit_square (p :: rest) =
      ((p.1 - c) * s, (p.2 - cv) * s) ::
        rest.map (fun q => ((q.1 - c) * s, (q.2 - cv) * s)) := rfl
  rw [h1]
  -- second-pass bounding box
  have hminU2 : uvMinU ((p.1 - c) * s, (p.2 - cv) * s)
      (rest.map (fun q => ((q.1 - c) * s, (q.2 - cv) * s))) = 0 := by
    rw [uvMinU_affine p rest c cv s hs0, ← hc]
    ring
  have hminV2 : uvMinV ((p.1 - c) * s, (p.2 - cv) * s)
      (rest.map (fun q => ((q.1 - c) * s, (q.2 - cv) * s))) = 0 := by
    rw [uvMinV_affine p rest c cv s hs0, ← hcv]
    ring
  have hmaxU2 : uvMaxU ((p.1 - c) * s, (p.2 - cv) * s)
      (rest.map (fun q => ((q.1 - c) * s, (q.2 - cv) * s))) = rU * s :=
    uvMaxU_affine p rest c cv s hs0
  have hmaxV2 : uvMaxV ((p.1 - c) * s, (p.2 - cv) * s)
      (rest.map (fun q => ((q.1 - c) * s, (q.2 - cv) * s))) = rV * s :=
    uvMaxV_affine p rest c cv s hs0
  have hRU2 : uvRangeU ((p.1 - c) * s, (p.2 - cv) * s)
      (rest.map (fun q => ((q.1 - c) * s, (q.2 - cv) * s))) =
      if rU * s < rangeEps then 1 else rU * s := by
    unfold uvRangeU
    rw [hminU2, hmaxU2, sub_zero]
  have hRV2 : uvRangeV ((p.1 - c) * s, (p.2 - cv) * s)
      (rest.map (fun q => ((q.1 - c) * s, (q.2 - cv) * s))) =
      if rV * s < rangeEps then 1 else rV * s := by
    unfold uvRangeV
    rw [hminV2, hmaxV2, sub_zero]
  -- each second-pass substituted range is at most 1
  have hA_le : (if rU * s < rangeEps then (1 : ℚ) else rU * s) ≤ 1 := by
    by_cases hU : rU < rangeEps
    · have hmax1 : (1 : ℚ) ≤ max (uvRangeU p rest) (uvRangeV p rest) := by
        calc (1 : ℚ) = uvRangeU p rest := by rw [hRU, if_pos hU]
        _ ≤ _ := le_max_left _ _
      have hsle1 : s ≤ 1 := by
        rw [hsdef]; unfold uvScale
        exact (div_le_one hmaxR_pos).mpr hmax1
      have hlt : rU * s < rangeEps :=
        lt_of_le_of_lt (mul_le_of_le_one_right hrU0 hsle1) hU
      rw [if_pos hlt]
    · have hle : rU * s ≤ 1 := by
        rw [hsdef]; unfold uvScale
        rw [mul_one_div]
        refine (div_le_one hmaxR_pos).mpr ?_
        calc rU = uvRangeU p rest := by rw [hRU, if_neg hU]
        _ ≤ _ := le_max_left _ _
      split
      · exact le_refl 1
      · exact hle
  have hB_le : (if rV * s < rangeEps then (1 : ℚ) else rV * s) ≤ 1 := by
    by_cases hV : rV < rangeEps
    · have hmax1 : (1 : ℚ) ≤ max (uvRangeU p rest) (uvRangeV p rest) := by
        calc (1 : ℚ) = uvRangeV p rest := by rw [hRV, if_pos hV]
        _ ≤ _ := le_max_right _ _
      have hsle1 : s ≤ 1 := by
        rw [hsdef]; unfold uvScale
        exact (div_le_one hmaxR_pos).mpr hmax1
      have hlt : rV * s < rangeEps :=
        lt_of_le_of_lt (mul_le_of_le_one_right hrV0 hsle1) hV
      rw [if_pos hlt]
    · have hle : rV * s ≤ 1 := by
        rw [hsdef]; unfold uvScale
        rw [mul_one_div]
        refine (div_le_one hmaxR_pos).mpr ?_
        calc rV = uvRangeV p rest := by rw [hRV, if_neg hV]
        _ ≤ _ := le_max_right _ _
      split
      · exact le_refl 1
      · exact hle
  -- at least one of the second-pass ranges is exactly 1
  have hone : (if rU * s < rangeEps then (1 : ℚ) else rU * s) = 1 ∨
      (if rV * s < rangeEps then (1 : ℚ) else rV * s) = 1 := by
    by_cases hU : rU < rangeEps
    · left
      have hmax1 : (1 : ℚ) ≤ max (uvRangeU p rest) (uvRangeV p rest) := by
        calc (1 : ℚ) = uvRangeU p rest := by rw [hRU, if_pos hU]
        _ ≤ _ := le_max_left _ _
      have hsle1 : s ≤ 1 := by
        rw [hsdef]; unfold uvScale
        exact (div_le_one hmaxR_pos).mpr hmax1
      exact if_pos (lt_of_le_of_lt (mul_le_of_le_one_right hrU0 hsle1) hU)
    · by_cases hV : rV < rangeEps
      · right
        have hmax1 : (1 : ℚ) ≤ max (uvRangeU p rest) (uvRangeV p rest) := by
          calc (1 : ℚ) = uvRangeV p rest := by rw [hRV, if_pos hV]
          _ ≤ _ := le_max_right _ _
        have hsle1 : s ≤ 1 := by
          rw [hsdef]; unfold uvScale
          exact (div_le_one hmaxR_pos).mpr hmax1
        exact if_pos (lt_of_le_of_lt (mul_le_of_le_one_right hrV0 hsle1) hV)
      · have hRUr : uvRangeU p rest = rU := by rw [hRU, if_neg hU]
        have hRVr : uvRangeV p rest = rV := by rw [hRV, if_neg hV]
        rcases le_total rV rU with hUV | hUV
        · left
          have hmaxr : max (uvRangeU p rest) (uvRangeV p rest) = rU := by
            rw [hRUr, hRVr]; exact max_eq_left hUV
          have hrUne : rU ≠ 0 := by
            have : rangeEps ≤ rU := not_lt.mp hU
            linarith
          have hval : rU * s = 1 := by
            rw [hsdef]; unfold uvScale
            rw [hmaxr, mul_one_div, div_self hrUne]
          rw [hval, if_neg (by linarith)]
        · right
          have hmaxr : max (uvRangeU p rest) (uvRangeV p rest) = rV := by
            rw [hRUr, hRVr]; exact max_eq_right hUV
          have hrVne : rV ≠ 0 := by
            have : rangeEps ≤ rV := not_lt.mp hV
            linarith
          have hval : rV * s = 1 := by
            rw [hsdef]; unfold uvScale
            rw [hmaxr, mul_one_div, div_self hrVne]
          rw [hval, if_neg (by linarith)]
  have hmaxAB : max (if rU * s < rangeEps then (1 : ℚ) else rU * s)
      (if rV * s < rangeEps then (1 : ℚ) else rV * s) = 1 := by
    refine le_antisymm (max_le hA_le hB_le) ?_
    rcases hone with h1' | h1'
    · exact le_trans (le_of_eq h1'.symm) (le_max_left _ _)
    · exact le_trans (le_of_eq h1'.symm) (le_max_right _ _)
  have hscale2 : uvScale ((p.1 - c) * s, (p.2 - cv) * s)
      (rest.map (fun q => ((q.1 - c) * s, (q.2 - cv) * s))) = 1 := by
    unfold uvScale
    rw [hRU2, hRV2, hmaxAB]
    norm_num
  have h2 : normalize_uvs_to_unit_square
      (((p.1 - c) * s, (p.2 - cv) * s) ::
        rest.map (fun q => ((q.1 - c) * s, (q.2 - cv) * s))) =
      ((((p.1 - c) * s, (p.2 - cv) * s) ::
        rest.map (fun q => ((q.1 - c) * s, (q.2 - cv) * s))).map (fun q =>
        ((q.1 - uvMinU ((p.1 - c) * s, (p.2 - cv) * s)
            (rest.map (fun q => ((q.1 - c) * s, (q.2 - cv) * s)))) *
          uvScale ((p.1 - c) * s, (p.2 - cv) * s)
            (rest.map (fun q => ((q.1 - c) * s, (q.2 - cv) * s))),
         (q.2 - uvMinV ((p.1 - c) * s, (p.2 - cv) * s)
            (rest.map (fun q => ((q.1 - c) * s, (q.2 - cv) * s)))) *
          uvScale ((p.1 - c) * s, (p.2 - cv) * s)
            (rest.map (fun q => ((q.1 - c) * s, (q.2 - cv) * s)))))) := rfl
  rw [h2, hminU2, hminV2, hscale2]
  simp

/-- C9 witness: the idempotence theorem applied at a concrete
two-point UV array. -/
theorem claim_C9_witness :
    ([((0 : ℚ), (0 : ℚ)), (2, 1)] ≠ ([] : List (ℚ × ℚ))) ∧
      normalize_uvs_to_unit_square
          (normalize_uvs_to_unit_square [((0 : ℚ), (0 : ℚ)), (2, 1)]) =
        normalize_uvs_to_unit_square [((0 : ℚ), (0 : ℚ)), (2, 1)] :=
  ⟨by decide, claim_C9_normalize_idempotent _ (by decide)⟩

/-! ### LSCM skeleton (`lscm.cpp`): local indexing, Dirichlet
elimination of the pinned unknowns, solve, normalization.

The numeric assembly of the normal-equations matrix `A = MᵗM`
(lines 175–307) evaluates 3D local frames with square roots; the
theorems below hold for *every* assembled triplet matrix, so the
assembled values are universally quantified rather than recomputed,
while the shape of the pipeline around them (local vertex mapping,
guards, pin elimination, solve, extraction, normalization) is embedded
from the source. -/

/-- The vertex triple of face `f` in the source's order. -/
def faceVertexList (mesh : Mesh) (f : ℕ) : List ℕ :=
  [(mesh.triangles.getD f (0, 0, 0)).1,
   (mesh.triangles.getD f (0, 0, 0)).2.1,
   (mesh.triangles.getD f (0, 0, 0)).2.2]

/-- One step of the `global_to_local` construction: append a vertex if
it has not been seen yet. -/
def addVert (acc : List ℕ) (v : ℕ) : List ℕ :=
  if v ∈ acc then acc else acc ++ [v]

/-- `local_to_global` of `lscm_parameterize` STEP 1: the distinct
vertices referenced by the island's faces, in first-encounter order. -/
def islandVerts (mesh : Mesh) (faceIdx : List ℕ) : List ℕ :=
  faceIdx.foldl (fun acc f => (faceVertexList mesh f).foldl addVert acc) []

/-- `addVert` preserves `Nodup`. -/
theorem addVert_nodup {acc : List ℕ} (h : acc.Nodup) (v : ℕ) :
    (addVert acc v).Nodup := by
  unfold addVert
  split
  · exact h
  · next hv => simp [List.nodup_append, h, hv]

/-- Membership after `addVert`. -/
theorem mem_addVert {acc : List ℕ} {v w : ℕ} :
    w ∈ addVert acc v ↔ w ∈ acc ∨ w = v := by
  unfold addVert
  split
  · next hv => constructor
               · exact fun h => Or.inl h
               · rintro (h | rfl)
                 · exact h
                 · exact hv
  · simp

/-- A fold of `addVert` preserves `Nodup`. -/
theorem foldl_addVert_nodup (l : List ℕ) {acc : List ℕ} (h : acc.Nodup) :
    (l.foldl addVert acc).Nodup := by
  induction l generalizing acc with
  | nil => exact h
  | cons x l ih => exact ih (addVert_nodup h x)

/-- Membership in a fold of `addVert`. -/
theorem mem_foldl_addVert (l : List ℕ) (acc : List ℕ) (w : ℕ) :
    w ∈ l.foldl addVert acc ↔ w ∈ acc ∨ w ∈ l := by
  induction l generalizing acc with
  | nil => simp
  | cons x l ih =>
      simp only [List.foldl_cons, ih, mem_addVert, List.mem_cons]
      tauto

/-- The local vertex list has no duplicates: its length is the number
of distinct vertices referenced by the island. -/
theorem islandVerts_nodup (mesh : Mesh) (faceIdx : List ℕ) :
    (islandVerts mesh faceIdx).Nodup := by
  unfold islandVerts
  have : ∀ (l : List ℕ) (acc : List ℕ), acc.Nodup →
      (l.foldl (fun acc f => (faceVertexList mesh f).foldl addVert acc) acc).Nodup := by
    intro l
    induction l with
    | nil => exact fun acc h => h
    | cons f l ih =>
        intro acc h
        exact ih _ (foldl_addVert_nodup _ h)
  exact this faceIdx [] List.nodup_nil

/-- The local vertex list contains exactly the vertices referenced by
the island's faces. -/
theorem mem_islandVerts (mesh : Mesh) (faceIdx : List ℕ) (w : ℕ) :
    w ∈ islandVerts mesh faceIdx ↔
      ∃ f ∈ faceIdx, w ∈ faceVertexList mesh f := by
  unfold islandVerts
  have : ∀ (l : List ℕ) (acc : List ℕ),
      w ∈ l.foldl (fun acc f => (faceVertexList mesh f).foldl addVert acc) acc ↔
        w ∈ acc ∨ ∃ f ∈ l, w ∈ faceVertexList mesh f := by
    intro l
    induction l with
    | nil => simp
    | cons f l ih =>
        intro acc
        simp only [List.foldl_cons, ih, mem_foldl_addVert, List.mem_cons]
        constructor
        · rintro ((h | h) | ⟨g, hg, hw⟩)
          · exact Or.inl h
          · exact Or.inr ⟨f, Or.inl rfl, h⟩
          · exact Or.inr ⟨g, Or.inr hg, hw⟩
        · rintro (h | ⟨g, hg | hg, hw⟩)
          · exact Or.inl (Or.inl h)
          · exact Or.inl (Or.inr (hg ▸ hw))
          · exact Or.inr ⟨g, hg, hw⟩
  simpa using this faceIdx []

/-- `lscm_parameterize` from `lscm.cpp`, with the sparse factor-and-solve
step (`Eigen::SparseLU`) abstracted as an oracle `solveLU` (`none` =
`solver.info() != Success` at either the factorization or the solve;
`some x` = the solved vector `x`).  Everything around it follows the
source: reject an empty face list, build the local vertex mapping,
reject islands with fewer than 3 distinct vertices, solve, extract one
`(u, v)` pair per local vertex from the solved vector, and normalize to
the unit square. -/
def lscm_parameterize (solveLU : Option (ℕ → ℚ)) (mesh : Mesh)
    (faceIdx : List ℕ) : Option (List (ℚ × ℚ)) :=
  if faceIdx.length = 0 then none
  else if (islandVerts mesh faceIdx).length < 3 then none
  else
    match solveLU with
    | none => none
    | some x =>
        some (normalize_uvs_to_unit_square
          ((List.range (islandVerts mesh faceIdx).length).map
            (fun i => (x (2 * i), x (2 * i + 1)))))

/-- Normalization preserves the number of UV pairs. -/
theorem normalize_length (l : List (ℚ × ℚ)) :
    (normalize_uvs_to_unit_square l).length = l.length := by
  cases l with
  | nil => rfl
  | cons p rest => simp [normalize_uvs_to_unit_square]

/-- C5: `lscm_parameterize` returns no result when the island has fewer
than 3 distinct vertices or the sparse factorization/solve fails;
otherwise it returns exactly one 2D coordinate per distinct vertex
referenced by the island's triangles (the local vertex list is
duplicate-free and contains exactly the referenced vertices). -/
theorem claim_C5_lscm_result (mesh : Mesh) (faceIdx : List ℕ)
    (solveLU : Option (ℕ → ℚ)) :
    ((islandVerts mesh faceIdx).length < 3 →
      lscm_parameterize solveLU mesh faceIdx = none) ∧
    (solveLU = none → lscm_parameterize solveLU mesh faceIdx = none) ∧
    (∀ x : ℕ → ℚ, solveLU = some x → 3 ≤ (islandVerts mesh faceIdx).length →
      ∃ uvs : List (ℚ × ℚ),
        lscm_parameterize solveLU mesh faceIdx = some uvs ∧
        uvs.length = (islandVerts mesh faceIdx).length ∧
        (islandVerts mesh faceIdx).Nodup ∧
        (∀ w : ℕ, w ∈ islandVerts mesh faceIdx ↔
          ∃ f ∈ faceIdx, w ∈ faceVertexList mesh f)) := by
  refine ⟨?_, ?_, ?_⟩
  · intro hn
    simp [lscm_parameterize, hn]
  · rintro rfl
    unfold lscm_parameterize
    split
    · rfl
    · split
      · rfl
      · rfl

  · rintro x rfl hn
    have hne : faceIdx.length ≠ 0 := by
      intro h0
      have : faceIdx = [] := List.length_eq_zero.mp h0
      subst this
      simp [islandVerts] at hn
    refine ⟨normalize_uvs_to_unit_square
      ((List.range (islandVerts mesh faceIdx).length).map
        (fun i => (x (2 * i), x (2 * i + 1)))), ?_, ?_, islandVerts_nodup mesh faceIdx,
      mem_islandVerts mesh faceIdx⟩
    · unfold lscm_parameterize
      rw [if_neg hne, if_neg (not_lt.mpr hn)]
    · rw [normalize_length]
      simp

/-- C5 witness: a single triangle (3 distinct vertices) with a
successful solve, via the theorem's third conjunct. -/
theorem claim_C5_witness :
    3 ≤ (islandVerts ⟨3, [(0, 1, 2)], fun _ => (0, 0)⟩ [0]).length ∧
      ∃ uvs : List (ℚ × ℚ),
        lscm_parameterize (some fun _ => 0) ⟨3, [(0, 1, 2)], fun _ => (0, 0)⟩ [0] =
            some uvs ∧
          uvs.length = (islandVerts ⟨3, [(0, 1, 2)], fun _ => (0, 0)⟩ [0]).length ∧
          (islandVerts ⟨3, [(0, 1, 2)], fun _ => (0, 0)⟩ [0]).Nodup ∧
          (∀ w : ℕ, w ∈ islandVerts ⟨3, [(0, 1, 2)], fun _ => (0, 0)⟩ [0] ↔
            ∃ f ∈ [0], w ∈ faceVertexList ⟨3, [(0, 1, 2)], fun _ => (0, 0)⟩ f) :=
  ⟨by decide,
   (claim_C5_lscm_result ⟨3, [(0, 1, 2)], fun _ => (0, 0)⟩ [0]
     (some fun _ => 0)).2.2 (fun _ => 0) rfl (by decide)⟩

/-! ### Dirichlet elimination of the pinned unknowns
(`lscm.cpp`, lines 360–471) -/

/-- A sparse-matrix triplet `(row, col, value)`, as in
`Eigen::Triplet<double>`. -/
abbrev Triplet := ℕ × ℕ × ℚ

/-- `pinned_vars = {p1_u, p1_v, p2_u, p2_v}`: the four pinned scalar
unknowns (columns alternate u then v per local vertex). -/
def pinnedVars (p1 p2 : ℕ) : List ℕ := [2 * p1, 2 * p1 + 1, 2 * p2, 2 * p2 + 1]

/-- `pinned_vals = {0.0, 0.0, 1.0, 0.0}`: pin to `(0,0)` and `(1,0)`. -/
def pinnedVals : List ℚ := [0, 0, 1, 0]

/-- The right-hand side after moving the pinned columns of `A` to the
RHS (`b(it.row()) -= it.value() * val` over each pinned column,
skipping the diagonal), starting from `b = 0`. -/
def rhsAfterColumnMove (A : List Triplet) (p1 p2 : ℕ) : ℕ → ℚ :=
  (List.range 4).foldl
    (fun b k =>
      A.foldl
        (fun b' t =>
          if t.2.1 = (pinnedVars p1 p2).getD k 0 ∧ t.1 ≠ (pinnedVars p1 p2).getD k 0 then
            Function.update b' t.1 (b' t.1 - t.2.2 * pinnedVals.getD k 0)
          else b')
        b)
    (fun _ => 0)

/-- The final right-hand side: after the column move, each pinned row of
`b` is overwritten with its target value. -/
def rhsFinal (A : List Triplet) (p1 p2 : ℕ) : ℕ → ℚ :=
  (List.range 4).foldl
    (fun b k =>
      Function.update b ((pinnedVars p1 p2).getD k 0) (pinnedVals.getD k 0))
    (rhsAfterColumnMove A p1 p2)

/-- The pruned matrix `A_final` (`lscm.cpp` lines 446–463): every stored
entry of `A` in a pinned row or column is dropped, except that a stored
pinned diagonal entry is replaced by 1; all other entries are kept. -/
def eliminatePins (A : List Triplet) (p1 p2 : ℕ) : List Triplet :=
  A.filterMap (fun t =>
    if t.1 ∈ pinnedVars p1 p2 ∨ t.2.1 ∈ pinnedVars p1 p2 then
      if t.1 = t.2.1 then some (t.1, t.1, 1) else none
    else some t)

/-- A triplet list as a dense `m × m` matrix
(`Eigen::SparseMatrix::setFromTriplets` sums duplicates). -/
def tripletsToMatrix (m : ℕ) (A : List Triplet) : Matrix (Fin m) (Fin m) ℚ :=
  Matrix.of fun i j =>
    (A.map (fun t => if t.1 = i.val ∧ t.2.1 = j.val then t.2.2 else 0)).sum

/-- Unfolding `eliminatePins` on a cons cell. -/
theorem eliminatePins_cons (t : Triplet) (A : List Triplet) (p1 p2 : ℕ) :
    eliminatePins (t :: A) p1 p2 =
      (if t.1 ∈ pinnedVars p1 p2 ∨ t.2.1 ∈ pinnedVars p1 p2 then
        (if t.1 = t.2.1 then [(t.1, t.1, 1)] else [])
      else [t]) ++ eliminatePins A p1 p2 := by
  unfold eliminatePins
  rw [List.filterMap_cons]
  by_cases hpin : t.1 ∈ pinnedVars p1 p2 ∨ t.2.1 ∈ pinnedVars p1 p2
  · rw [if_pos hpin, if_pos hpin]
    by_cases hdiag : t.1 = t.2.1
    · rw [if_pos hdiag, if_pos hdiag]
      rfl
    · rw [if_neg hdiag, if_neg hdiag]
      rfl
  · rw [if_neg hpin, if_neg hpin]
    rfl

/-- A pinned row of the pruned matrix: it is the unit row at the pinned
index if the pinned diagonal entry is structurally present in `A`, and
zero otherwise. -/
theorem eliminatePins_pinned_row (A : List Triplet) (p1 p2 : ℕ) (p : ℕ)
    (hp : p ∈ pinnedVars p1 p2)
    (hkeys : (A.map (fun t => (t.1, t.2.1))).Nodup) (j : ℕ) :
    ((eliminatePins A p1 p2).map
        (fun t => if t.1 = p ∧ t.2.1 = j then t.2.2 else 0)).sum =
      if p = j ∧ (p, p) ∈ A.map (fun t => (t.1, t.2.1)) then 1 else 0 := by
  induction A with
  | nil => simp [eliminatePins]
  | cons t A ih =>
      have hkeys' : (A.map (fun t => (t.1, t.2.1))).Nodup :=
        (List.nodup_cons.mp hkeys).2
      have hhead : (t.1, t.2.1) ∉ A.map (fun t => (t.1, t.2.1)) :=
        (List.nodup_cons.mp hkeys).1
      rw [eliminatePins_cons, List.map_append, List.sum_append, ih hkeys']
      by_cases hpin : t.1 ∈ pinnedVars p1 p2 ∨ t.2.1 ∈ pinnedVars p1 p2
      · rw [if_pos hpin]
        by_cases hdiag : t.1 = t.2.1
        · rw [if_pos hdiag]
          simp only [List.map_cons, List.map_nil, List.sum_cons, List.sum_nil]
          by_cases hdp : t.1 = p
          · subst hdp
            have hnotin : ((t.1, t.1) ∈ A.map (fun t => (t.1, t.2.1))) → False := by
              intro hmem
              rw [← hdiag] at hhead
              exact hhead hmem
            by_cases hj : t.1 = j
            · subst hj
              rw [if_pos ⟨rfl, rfl⟩, if_neg, if_pos ⟨rfl, by simp [← hdiag]⟩]
              · ring
              · rintro ⟨-, hmem⟩
                exact hnotin hmem
            · rw [if_neg (by tauto), if_neg (by tauto), if_neg (by tauto)]
              ring
          · rw [if_neg (by tauto)]
            have hiff : ((p, p) ∈ ((t.1, t.2.1) :: A.map (fun t => (t.1, t.2.1)))) ↔
                ((p, p) ∈ A.map (fun t => (t.1, t.2.1))) := by
              simp only [List.mem_cons]
              constructor
              · rintro (h | h)
                · exact absurd (congrArg Prod.fst h).symm hdp
                · exact h
              · exact Or.inr
            simp only [hiff]
            ring
        · rw [if_neg hdiag]
          simp only [List.map_nil, List.sum_nil, List.map_cons]
          have hiff : ((p, p) ∈ ((t.1, t.2.1) :: A.map (fun t => (t.1, t.2.1)))) ↔
              ((p, p) ∈ A.map (fun t => (t.1, t.2.1))) := by
            simp only [List.mem_cons]
            constructor
            · rintro (h | h)
              · refine absurd ?_ hdiag
                have h1 := congrArg Prod.fst h
                have h2 := congrArg Prod.snd h
                simp at h1 h2
                rw [← h1, ← h2]
              · exact h
            · exact Or.inr
          simp only [hiff]
          ring
      · rw [if_neg hpin]
        simp only [List.map_cons, List.map_nil, List.sum_cons, List.sum_nil]
        have ht1 : t.1 ≠ p := by
          intro h
          exact hpin (Or.inl (h ▸ hp))
        rw [if_neg (by tauto)]
        have hiff : ((p, p) ∈ ((t.1, t.2.1) :: A.map (fun t => (t.1, t.2.1)))) ↔
            ((p, p) ∈ A.map (fun t => (t.1, t.2.1))) := by
          simp only [List.mem_cons]
          constructor
          · rintro (h | h)
            · exact absurd (congrArg Prod.fst h).symm ht1
            · exact h
          · exact Or.inr
        simp only [hiff]
        ring

/-- The final RHS has exactly the pin target at every pinned row:
`(0,0)` for the first pinned vertex, `(1,0)` for the second. -/
theorem rhsFinal_pins (A : List Triplet) (p1 p2 : ℕ) (hne : p1 ≠ p2) :
    rhsFinal A p1 p2 (2 * p1) = 0 ∧ rhsFinal A p1 p2 (2 * p1 + 1) = 0 ∧
      rhsFinal A p1 p2 (2 * p2) = 1 ∧ rhsFinal A p1 p2 (2 * p2 + 1) = 0 := by
  have h4 : List.range 4 = [0, 1, 2, 3] := rfl
  unfold rhsFinal
  rw [h4]
  simp only [List.foldl_cons, List.foldl_nil, pinnedVars, pinnedVals,
    List.getD, List.get?, Option.getD_some, Function.update]
  refine ⟨?_, ?_, ?_, ?_⟩ <;>
    · split_ifs <;> first | rfl | omega

/-- A pinned row of the assembled final matrix, as a matrix row. -/
theorem tripletsToMatrix_pinned_row (m : ℕ) (A : List Triplet)
    (p1 p2 : ℕ) (p : ℕ) (hp : p < m) (hmem : p ∈ pinnedVars p1 p2)
    (hkeys : (A.map (fun t => (t.1, t.2.1))).Nodup) (j : Fin m) :
    tripletsToMatrix m (eliminatePins A p1 p2) ⟨p, hp⟩ j =
      if p = j.val ∧ (p, p) ∈ A.map (fun t => (t.1, t.2.1)) then 1 else 0 :=
  eliminatePins_pinned_row A p1 p2 p hmem hkeys j.val

/-- C2: whenever the eliminated system is nonsingular and `x` solves it
exactly (the model of a successful `SparseLU` factor-and-solve), the
solved vector carries exactly the pin targets: `(u,v) = (0,0)` at the
first pinned vertex and `(1,0)` at the second, before unit-square
normalization.  The theorem quantifies over every assembled
normal-equations triplet list `A` (with the unique-coordinate property
every compressed Eigen matrix has), so it covers every island. -/
theorem claim_C2_pinned_uvs (m p1 p2 : ℕ) (A : List Triplet) (x : Fin m → ℚ)
    (hp1 : 2 * p1 + 1 < m) (hp2 : 2 * p2 + 1 < m) (hne : p1 ≠ p2)
    (hkeys : (A.map (fun t => (t.1, t.2.1))).Nodup)
    (hdet : IsUnit (tripletsToMatrix m (eliminatePins A p1 p2)).det)
    (hsolve : (tripletsToMatrix m (eliminatePins A p1 p2)).mulVec x =
      fun i => rhsFinal A p1 p2 i.val) :
    x ⟨2 * p1, by omega⟩ = 0 ∧ x ⟨2 * p1 + 1, hp1⟩ = 0 ∧
      x ⟨2 * p2, by omega⟩ = 1 ∧ x ⟨2 * p2 + 1, hp2⟩ = 0 := by
  have key : ∀ (p : ℕ) (hp : p < m), p ∈ pinnedVars p1 p2 →
      x ⟨p, hp⟩ = rhsFinal A p1 p2 p := by
    intro p hp hmem
    by_cases hpp : (p, p) ∈ A.map (fun t => (t.1, t.2.1))
    · have hrow : ∀ j : Fin m,
          tripletsToMatrix m (eliminatePins A p1 p2) ⟨p, hp⟩ j =
            if j = ⟨p, hp⟩ then 1 else 0 := by
        intro j
        rw [tripletsToMatrix_pinned_row m A p1 p2 p hp hmem hkeys j]
        by_cases hj : p = j.val
        · rw [if_pos ⟨hj, hpp⟩, if_pos (Fin.ext hj.symm)]
        · rw [if_neg (by tauto), if_neg (fun h => hj (congrArg Fin.val h).symm)]
      have hs := congrFun hsolve ⟨p, hp⟩
      rw [Matrix.mulVec] at hs
      simp only [Matrix.dotProduct, hrow, ite_mul, one_mul, zero_mul,
        Finset.sum_ite_eq', Finset.mem_univ, if_true] at hs
      exact hs
    · exfalso
      have hrow0 : ∀ j : Fin m,
          tripletsToMatrix m (eliminatePins A p1 p2) ⟨p, hp⟩ j = 0 := by
        intro j
        rw [tripletsToMatrix_pinned_row m A p1 p2 p hp hmem hkeys j,
          if_neg (fun h => hpp h.2)]
      have hd0 : (tripletsToMatrix m (eliminatePins A p1 p2)).det = 0 :=
        Matrix.det_eq_zero_of_row_eq_zero (⟨p, hp⟩ : Fin m) hrow0
      rw [hd0] at hdet
      exact not_isUnit_zero hdet
  obtain ⟨h1, h2, h3, h4⟩ := rhsFinal_pins A p1 p2 hne
  refine ⟨?_, ?_, ?_, ?_⟩
  · rw [key (2 * p1) (by omega) (by simp [pinnedVars]), h1]
  · rw [key (2 * p1 + 1) hp1 (by simp [pinnedVars]), h2]
  · rw [key (2 * p2) (by omega) (by simp [pinnedVars]), h3]
  · rw [key (2 * p2 + 1) hp2 (by simp [pinnedVars]), h4]

/-- A concrete assembled triplet list for the C2 witness: the 4×4
identity, whose four unknowns are all pinned. -/
def c2A : List Triplet := [(0, 0, 1), (1, 1, 1), (2, 2, 1), (3, 3, 1)]

/-- The concrete solved vector for the C2 witness. -/
def c2x : Fin 4 → ℚ := ![0, 0, 1, 0]

/-- C2 witness: the pinned-value theorem applied at a concrete
4-unknown system with pins `p1 = 0`, `p2 = 1`. -/
theorem claim_C2_witness :
    ((2 * 0 + 1 < 4) ∧ (2 * 1 + 1 < 4) ∧ (0 : ℕ) ≠ 1 ∧
      (c2A.map (fun t => (t.1, t.2.1))).Nodup ∧
      IsUnit (tripletsToMatrix 4 (eliminatePins c2A 0 1)).det ∧
      (tripletsToMatrix 4 (eliminatePins c2A 0 1)).mulVec c2x =
        fun i => rhsFinal c2A 0 1 i.val) ∧
    (c2x ⟨2 * 0, by omega⟩ = 0 ∧ c2x ⟨2 * 0 + 1, by omega⟩ = 0 ∧
      c2x ⟨2 * 1, by omega⟩ = 1 ∧ c2x ⟨2 * 1 + 1, by omega⟩ = 0) := by
  have hM : tripletsToMatrix 4 (eliminatePins c2A 0 1) = 1 := by
    funext i j
    fin_cases i <;> fin_cases j <;>
      simp [tripletsToMatrix, eliminatePins, c2A, pinnedVars, Matrix.one_apply,
        Fin.coe_ofNat_eq_mod]
  have hdet : IsUnit (tripletsToMatrix 4 (eliminatePins c2A 0 1)).det := by
    rw [hM, Matrix.det_one]
    exact isUnit_one
  have hsolve : (tripletsToMatrix 4 (eliminatePins c2A 0 1)).mulVec c2x =
      fun i => rhsFinal c2A 0 1 i.val := by
    funext i
    fin_cases i <;>
      simp [Matrix.mulVec, Matrix.dotProduct, Fin.sum_univ_four, tripletsToMatrix,
        eliminatePins, c2A, pinnedVars, c2x, rhsFinal, rhsAfterColumnMove,
        pinnedVals, Function.update, List.range_succ, Fin.coe_ofNat_eq_mod]
  exact ⟨⟨by norm_num, by norm_num, by decide, by decide, hdet, hsolve⟩,
    claim_C2_pinned_uvs 4 0 1 c2A c2x (by norm_num) (by norm_num)
      (by decide) (by decide) hdet hsolve⟩

/-! ### Breadth-first traversal (`seam_detection.cpp` lines 130–167,
`unwrap.cpp` lines 82–105)

Both files run the same queue-based flood fill: pop a face, and for
every unvisited neighbour mark it visited, record it (with the edge it
was discovered through) and push it.  The recursion is driven by an
explicit fuel argument so that the function is structurally recursive
and computable; `2 * F + 2` fuel provably exceeds the measure
`2·|unvisited ∩ [0,F)| + |queue|`, which strictly decreases at every
step, so the fuel never runs out on the calls the code performs.
Neighbour indices outside `[0, F)` are ignored; on such input the C++
(indexing `adj[v]` out of bounds) has undefined behavior. -/

/-- Process a popped node's neighbour list: collect and mark the
in-range unvisited neighbours, in list order, each paired with the edge
index it was discovered through. -/
def visitNbrs (F : ℕ) : List (ℕ × ℕ) → Finset ℕ → Finset ℕ × List (ℕ × ℕ)
  | [], vis => (vis, [])
  | (v, e) :: rest, vis =>
      if v < F ∧ v ∉ vis then
        ((visitNbrs F rest (insert v vis)).1,
         (v, e) :: (visitNbrs F rest (insert v vis)).2)
      else visitNbrs F rest vis

/-- Fuel-driven breadth-first flood: returns the final visited set and
the discovery list (node, edge) in BFS order. -/
def floodAux (adj : ℕ → List (ℕ × ℕ)) (F : ℕ) :
    ℕ → List ℕ → Finset ℕ → List (ℕ × ℕ) → Finset ℕ × List (ℕ × ℕ)
  | 0, _, vis, acc => (vis, acc)
  | _ + 1, [], vis, acc => (vis, acc)
  | fuel + 1, u :: rest, vis, acc =>
      floodAux adj F fuel
        (rest ++ ((visitNbrs F (adj u) vis).2.map Prod.fst))
        (visitNbrs F (adj u) vis).1
        (acc ++ (visitNbrs F (adj u) vis).2)

/-! ### Seam detection (`seam_detection.cpp`) -/

/-- The dual-graph adjacency list of face `u`: for every edge (in edge
order) with two incident faces, the code pushes `f1` onto `adj[f0]` and
`f0` onto `adj[f1]`, each tagged with the edge index. -/
def dualAdj (topo : TopologyInfo) (u : ℕ) : List (ℕ × ℕ) :=
  topo.edges.enum.foldl
    (fun acc p =>
      if p.2.2.1 ≠ -1 ∧ p.2.2.2 ≠ -1 then
        (if p.2.2.1 = (u : ℤ) then acc ++ [(p.2.2.2.toNat, p.1)] else acc) ++
          (if p.2.2.2 = (u : ℤ) then [(p.2.2.1.toNat, p.1)] else [])
      else acc)
    []

/-- The BFS spanning forest (`detect_seams` step 2): breadth-first
traversal from every unvisited face; returns the visited set and the
list of tree-edge indices. -/
def spanningForest (topo : TopologyInfo) (F : ℕ) : Finset ℕ × List ℕ :=
  (List.range F).foldl
    (fun st start =>
      if start ∈ st.1 then st
      else
        ((floodAux (dualAdj topo) F (2 * F + 2) [start] (insert start st.1) []).1,
         st.2 ++ (floodAux (dualAdj topo) F (2 * F + 2) [start]
           (insert start st.1) []).2.map Prod.snd))
    (∅, [])

/-- Number of boundary edges: edges whose second incident face is
"none" (`detect_seams` lines 174–179). -/
def boundaryEdgeCount (topo : TopologyInfo) : ℕ :=
  (topo.edges.filter (fun p => p.2.2 = -1)).length

/-- Topological degree of a vertex: the number of edges having it as an
endpoint (`detect_seams` lines 211–215). -/
def vertexDegree (topo : TopologyInfo) (v : ℕ) : ℕ :=
  (topo.edges.filter (fun p => p.1.1 = v ∨ p.1.2 = v)).length

/-- The non-tree (cut) candidates with their priorities, in edge order:
every edge not in the spanning forest, scored by the sum of its
endpoint degrees.  For open meshes (`excludeBoundary = true`), boundary
edges are not eligible. -/
def nonTreeCandidates (topo : TopologyInfo) (tree : List ℕ)
    (excludeBoundary : Bool) : List (ℕ × ℕ) :=
  topo.edges.enum.filterMap (fun p =>
    if (excludeBoundary = false ∨ p.2.2.2 ≠ -1) ∧ p.1 ∉ tree then
      some (p.1, vertexDegree topo p.2.1.1 + vertexDegree topo p.2.1.2)
    else none)

/-- Candidate order: ascending combined endpoint degree (the
`std::sort` comparator at lines 223–226 / 274–277). -/
def candLE (a b : ℕ × ℕ) : Prop := a.2 ≤ b.2

instance : DecidableRel candLE := fun a b => by
  unfold candLE; infer_instance

instance : IsTotal (ℕ × ℕ) candLE := ⟨fun a b => le_total a.2 b.2⟩

instance : IsTrans (ℕ × ℕ) candLE := ⟨fun _ _ _ h1 h2 => le_trans h1 h2⟩

/-- The seam-count cap for closed meshes (`detect_seams` lines
234–246): small meshes keep all candidates, medium meshes about one
third capped at 2, large meshes about 1/14 capped at 5, floor 1. -/
def targetSeamsClosed (F c : ℕ) : ℕ :=
  if F ≤ 20 then c
  else if F ≤ 70 then min (max 1 (c / 3)) 2
  else min (max 1 (c / 14)) 5

/-- The seam-count cap for open meshes (lines 280–281). -/
def targetSeamsOpen (c : ℕ) : ℕ := min (max 1 (c / 3)) 2

/-- `detect_seams` from `seam_detection.cpp` (the angle threshold is
unused by the code: the angular-defect refinement is disabled): build
the dual graph, BFS a spanning forest, classify the mesh as closed or
open, collect and score the eligible non-tree candidates, sort them by
ascending priority, and keep a bounded prefix; the selected edge
indices are emitted in ascending order (`std::set` iteration). -/
def detect_seams (mesh : Mesh) (topo : TopologyInfo) : List ℕ :=
  let F := mesh.triangles.length
  let tree := (spanningForest topo F).2
  let closed := boundaryEdgeCount topo = 0
  let cands :=
    if closed then nonTreeCandidates topo tree false
    else nonTreeCandidates topo tree true
  let target :=
    if closed then targetSeamsClosed F cands.length
    else targetSeamsOpen cands.length
  let sorted := cands.insertionSort candLE
  let sel := (sorted.take (min target sorted.length)).map Prod.fst
  sel.insertionSort (· ≤ ·)

/-- A degenerate closed mesh with 24 faces and no non-tree candidate
edges: six disjoint four-face gadgets on vertex pairs `(2i, 2i+1)`.  In
each gadget every edge has two incident faces (so the mesh counts as
closed) and the dual graph is a tree, so the BFS forest absorbs every
edge and the candidate set is empty. -/
def c4mesh : Mesh :=
  ⟨12,
   [(0, 1, 0), (1, 0, 1), (0, 0, 0), (1, 1, 1),
    (2, 3, 2), (3, 2, 3), (2, 2, 2), (3, 3, 3),
    (4, 5, 4), (5, 4, 5), (4, 4, 4), (5, 5, 5),
    (6, 7, 6), (7, 6, 7), (6, 6, 6), (7, 7, 7),
    (8, 9, 8), (9, 8, 9), (8, 8, 8), (9, 9, 9),
    (10, 11, 10), (11, 10, 11), (10, 10, 10), (11, 11, 11)],
   fun _ => (0, 0)⟩

/-- The topology `build_topology` produces for `c4mesh`. -/
def c4topo : TopologyInfo :=
  ⟨(buildEdgeMap c4mesh.triangles).insertionSort edgeEntryLE⟩

set_option maxRecDepth 16000 in
/-- C4 counterexample: `c4mesh` is closed with 24 faces (medium) and
`c = 0` non-tree candidates; the claimed count `min(2, max(1, c/3))`
is 1, but `detect_seams` keeps 0 seams (the selection loop runs
`min(target, c) = 0` times). -/
theorem claim_C4_counterexample :
    build_topology (some c4mesh) = some c4topo ∧
    boundaryEdgeCount c4topo = 0 ∧
    20 < c4mesh.triangles.length ∧ c4mesh.triangles.length ≤ 70 ∧
    (nonTreeCandidates c4topo
      (spanningForest c4topo c4mesh.triangles.length).2 false).length = 0 ∧
    (detect_seams c4mesh c4topo).length = 0 ∧
    min 2 (max 1 ((nonTreeCandidates c4topo
      (spanningForest c4topo c4mesh.triangles.length).2 false).length / 3)) = 1 :=
  ⟨rfl, by decide, by decide, by decide, by decide, by decide, by decide⟩

/-- Membership characterization for the candidate list. -/
theorem mem_nonTreeCandidates {topo : TopologyInfo} {tree : List ℕ} {ex : Bool}
    {e pr : ℕ} :
    (e, pr) ∈ nonTreeCandidates topo tree ex ↔
      ∃ entry, topo.edges[e]? = some entry ∧
        (ex = false ∨ entry.2.2 ≠ -1) ∧ e ∉ tree ∧
        pr = vertexDegree topo entry.1.1 + vertexDegree topo entry.1.2 := by
  unfold nonTreeCandidates
  rw [List.mem_filterMap]
  constructor
  · rintro ⟨⟨i, entry⟩, hp, heq⟩
    split at heq
    · next hcond =>
        injection heq with heq2
        have hi : i = e := congrArg Prod.fst heq2
        have hpr : vertexDegree topo entry.1.1 + vertexDegree topo entry.1.2 = pr := by
          have := congrArg Prod.snd heq2
          simpa using this
        subst hi
        exact ⟨entry, List.mk_mem_enum_iff_getElem?.mp hp, hcond.1, hcond.2, hpr.symm⟩
    · exact absurd heq (by simp)
  · rintro ⟨entry, hget, hcond1, hcond2, rfl⟩
    refine ⟨(e, entry), List.mk_mem_enum_iff_getElem?.mpr hget, ?_⟩
    rw [if_pos ⟨hcond1, hcond2⟩]

/-- A candidate's priority is determined by its edge index. -/
theorem nonTreeCandidates_priority_unique {topo : TopologyInfo}
    {tree : List ℕ} {ex : Bool} {e pr pr' : ℕ}
    (h1 : (e, pr) ∈ nonTreeCandidates topo tree ex)
    (h2 : (e, pr') ∈ nonTreeCandidates topo tree ex) : pr = pr' := by
  obtain ⟨en1, hg1, -, -, hp1⟩ := mem_nonTreeCandidates.mp h1
  obtain ⟨en2, hg2, -, -, hp2⟩ := mem_nonTreeCandidates.mp h2
  rw [hg1] at hg2
  injection hg2 with h
  rw [hp1, hp2, h]

/-- A `foldl` preserves any invariant its step preserves. -/
theorem foldl_preserve {α β : Type} (step : β → α → β) (P : β → Prop)
    (h : ∀ b a, P b → P (step b a)) :
    ∀ (l : List α) (b : β), P b → P (l.foldl step b) := by
  intro l
  induction l with
  | nil => exact fun b hb => hb
  | cons a l ih => exact fun b hb => ih (step b a) (h b a hb)

/-- `recordEdge` keeps every stored `face0` nonnegative when the
inserted face is. -/
theorem recordEdge_face0 {m : List ((ℕ × ℕ) × (ℤ × ℤ))} {k : ℕ × ℕ} {f : ℤ}
    (hf : 0 ≤ f) (h : ∀ p ∈ m, 0 ≤ p.2.1) :
    ∀ p ∈ recordEdge m k f, 0 ≤ p.2.1 := by
  unfold recordEdge
  split
  · intro p hp
    rw [List.mem_map] at hp
    obtain ⟨q, hq, rfl⟩ := hp
    split
    · exact h q hq
    · exact h q hq
  · intro p hp
    rw [List.mem_append] at hp
    rcases hp with hp | hp
    · exact h p hp
    · rw [List.mem_singleton] at hp
      subst hp
      exact hf

/-- Every edge of the built edge map records a real first incident
face: `face0 ≥ 0`. -/
theorem buildEdgeMap_face0 (tris : List (ℕ × ℕ × ℕ)) :
    ∀ p ∈ buildEdgeMap tris, 0 ≤ p.2.1 := by
  unfold buildEdgeMap
  refine foldl_preserve _
    (fun m : List ((ℕ × ℕ) × (ℤ × ℤ)) => ∀ p ∈ m, 0 ≤ p.2.1) ?_ _ _ (by simp)
  intro m ft hm
  refine foldl_preserve _
    (fun m : List ((ℕ × ℕ) × (ℤ × ℤ)) => ∀ p ∈ m, 0 ≤ p.2.1) ?_ _ _ hm
  intro m' k hm'
  exact recordEdge_face0 (Int.ofNat_nonneg ft.1) hm'

/-- Every selected seam edge is drawn from the (closed- or open-mesh)
candidate list. -/
theorem detect_seams_mem (mesh : Mesh) (topo : TopologyInfo) {e : ℕ}
    (he : e ∈ detect_seams mesh topo) :
    ∃ pr, (e, pr) ∈ (if boundaryEdgeCount topo = 0
      then nonTreeCandidates topo
        (spanningForest topo mesh.triangles.length).2 false
      else nonTreeCandidates topo
        (spanningForest topo mesh.triangles.length).2 true) := by
  unfold detect_seams at he
  rw [(List.perm_insertionSort _ _).mem_iff, List.mem_map] at he
  obtain ⟨p, hp, rfl⟩ := he
  have hp2 := (List.perm_insertionSort candLE _).subset
    (List.take_subset _ _ hp)
  exact ⟨p.2, hp2⟩

/-- C7: every edge index returned by `detect_seams` (on the topology
built for the mesh) is a valid index into the edge array and denotes an
interior edge: both incident faces are present.  Boundary edges are
never selected. -/
theorem claim_C7_seams_interior (mesh : Mesh) (topo : TopologyInfo)
    (htopo : build_topology (some mesh) = some topo) :
    ∀ e ∈ detect_seams mesh topo,
      e < topo.numEdges ∧ (topo.faces e).1 ≠ -1 ∧ (topo.faces e).2 ≠ -1 := by
  intro e he
  obtain ⟨pr, hpr⟩ := detect_seams_mem mesh topo he
  have hedges : topo.edges = (buildEdgeMap mesh.triangles).insertionSort edgeEntryLE := by
    have h2 := htopo
    unfold build_topology at h2
    injection h2 with h3
    rw [← h3]
  have hface0 : ∀ p ∈ topo.edges, 0 ≤ p.2.1 := by
    intro p hp
    rw [hedges] at hp
    exact buildEdgeMap_face0 mesh.triangles p ((List.perm_insertionSort _ _).subset hp)
  have main : ∀ entry, topo.edges[e]? = some entry → entry.2.2 ≠ -1 →
      e < topo.numEdges ∧ (topo.faces e).1 ≠ -1 ∧ (topo.faces e).2 ≠ -1 := by
    intro entry hget hf1
    have hlt : e < topo.edges.length := (List.getElem?_eq_some_iff.mp hget).1
    have hmem : entry ∈ topo.edges := List.getElem?_mem hget
    have hfaces : topo.faces e = entry.2 := by
      unfold TopologyInfo.faces
      rw [List.getD_eq_getElem?_getD, hget]
      rfl
    refine ⟨hlt, ?_, ?_⟩
    · rw [hfaces]
      have h0 := hface0 entry hmem
      intro hne
      rw [hne] at h0
      norm_num at h0
    · rw [hfaces]
      exact hf1
  by_cases hclosed : boundaryEdgeCount topo = 0
  · rw [if_pos hclosed] at hpr
    obtain ⟨entry, hget, -, -, -⟩ := mem_nonTreeCandidates.mp hpr
    refine main entry hget ?_
    have hnil : (topo.edges.filter (fun p => p.2.2 = -1)) = [] :=
      List.length_eq_zero.mp hclosed
    have hent := List.filter_eq_nil_iff.mp hnil entry (List.getElem?_mem hget)
    simpa using hent
  · rw [if_neg hclosed] at hpr
    obtain ⟨entry, hget, hcond, -, -⟩ := mem_nonTreeCandidates.mp hpr
    refine main entry hget ?_
    rcases hcond with h | h
    · exact absurd h (by simp)
    · exact h

/-- A closed two-triangle "pillow" mesh: both triangles cover the same
three vertices, every edge is interior. -/
def pillowMesh : Mesh := ⟨3, [(0, 1, 2), (0, 2, 1)], fun _ => (0, 0)⟩

/-- The topology built for `pillowMesh`. -/
def pillowTopo : TopologyInfo :=
  ⟨(buildEdgeMap pillowMesh.triangles).insertionSort edgeEntryLE⟩

/-- C7 witness: on the pillow mesh, edge 1 is selected as a seam and the
theorem certifies it valid and interior. -/
theorem claim_C7_witness :
    (build_topology (some pillowMesh) = some pillowTopo ∧
      1 ∈ detect_seams pillowMesh pillowTopo) ∧
    (1 < pillowTopo.numEdges ∧ (pillowTopo.faces 1).1 ≠ -1 ∧
      (pillowTopo.faces 1).2 ≠ -1) :=
  ⟨⟨rfl, by decide⟩,
   claim_C7_seams_interior pillowMesh pillowTopo rfl 1 (by decide)⟩

/-- C4 (amended): for a closed mesh with `c` non-tree candidates,
`detect_seams` keeps `c` candidates when `F ≤ 20`,
`min(min(2, max(1, c/3)), c)` when `20 < F ≤ 70`, and
`min(min(5, max(1, c/14)), c)` when `F > 70` — i.e. the claimed counts
additionally capped by `c` itself (the cap only binds when `c = 0`) —
and the selected candidates always have priority (combined endpoint
degree) no larger than any unselected candidate's. -/
theorem claim_C4_amended (mesh : Mesh) (topo : TopologyInfo)
    (hclosed : boundaryEdgeCount topo = 0) :
    ((mesh.triangles.length ≤ 20 →
      (detect_seams mesh topo).length =
        (nonTreeCandidates topo
          (spanningForest topo mesh.triangles.length).2 false).length) ∧
     (20 < mesh.triangles.length → mesh.triangles.length ≤ 70 →
      (detect_seams mesh topo).length =
        min (min 2 (max 1 ((nonTreeCandidates topo
            (spanningForest topo mesh.triangles.length).2 false).length / 3)))
          (nonTreeCandidates topo
            (spanningForest topo mesh.triangles.length).2 false).length) ∧
     (70 < mesh.triangles.length →
      (detect_seams mesh topo).length =
        min (min 5 (max 1 ((nonTreeCandidates topo
            (spanningForest topo mesh.triangles.length).2 false).length / 14)))
          (nonTreeCandidates topo
            (spanningForest topo mesh.triangles.length).2 false).length)) ∧
    (∀ p ∈ nonTreeCandidates topo
        (spanningForest topo mesh.triangles.length).2 false,
     ∀ q ∈ nonTreeCandidates topo
        (spanningForest topo mesh.triangles.length).2 false,
      p.1 ∈ detect_seams mesh topo → q.1 ∉ detect_seams mesh topo →
        p.2 ≤ q.2) := by
  set F := mesh.triangles.length with hF
  set C := nonTreeCandidates topo (spanningForest topo F).2 false with hC
  set S := C.insertionSort candLE with hS
  set k := min (targetSeamsClosed F C.length) S.length with hk
  have hout : detect_seams mesh topo =
      ((S.take k).map Prod.fst).insertionSort (· ≤ ·) := by
    simp only [detect_seams]
    rw [if_pos hclosed, if_pos hclosed, ← hF, ← hC, ← hS, ← hk]
  have hSlen : S.length = C.length := List.length_insertionSort _ _
  have hlen : (detect_seams mesh topo).length =
      min (targetSeamsClosed F C.length) C.length := by
    rw [hout, List.length_insertionSort, List.length_map, List.length_take,
      hk, hSlen, min_assoc, min_self]
  refine ⟨⟨?_, ?_, ?_⟩, ?_⟩
  · intro h20
    rw [hlen]
    unfold targetSeamsClosed
    rw [if_pos h20, min_self]
  · intro h20 h70
    rw [hlen]
    unfold targetSeamsClosed
    rw [if_neg (by omega), if_pos h70, min_comm 2 (max 1 (C.length / 3))]
  · intro h70
    rw [hlen]
    unfold targetSeamsClosed
    rw [if_neg (by omega), if_neg (by omega), min_comm 5 (max 1 (C.length / 14))]
  · intro p hp q hq hpin hqout
    rw [hout, (List.perm_insertionSort _ _).mem_iff] at hpin hqout
    -- locate p inside the selected prefix, with its canonical priority
    rw [List.mem_map] at hpin
    obtain ⟨p', hp', hp'1⟩ := hpin
    have hp'C : p' ∈ C :=
      (List.perm_insertionSort candLE C).subset (List.take_subset _ _ hp')
    have hp'pr : p'.2 = p.2 := by
      refine @nonTreeCandidates_priority_unique topo
        ((spanningForest topo F).2) false p.1 p'.2 p.2 ?_ ?_
      · rw [show (p.1, p'.2) = p' from by rw [← hp'1]]
        exact hp'C
      · rw [show (p.1, p.2) = p from rfl]
        exact hp
    -- q lies in the dropped suffix
    have hqS : q ∈ S := (List.perm_insertionSort candLE C).mem_iff.mpr hq
    have hqdrop : q ∈ S.drop k := by
      have hqsplit : q ∈ S.take k ++ S.drop k := by
        rw [List.take_append_drop]
        exact hqS
      rcases List.mem_append.mp hqsplit with hqt | hqd
      · exact absurd (List.mem_map_of_mem Prod.fst hqt) hqout
      · exact hqd
    -- sortedness across the take/drop split
    have hsorted : List.Pairwise candLE S := List.sorted_insertionSort candLE C
    have hsplit := hsorted
    rw [← List.take_append_drop k S, List.pairwise_append] at hsplit
    have hle : candLE p' q := hsplit.2.2 p' hp' q hqdrop
    unfold candLE at hle
    rw [hp'pr] at hle
    exact hle

/-- C4 amended-claim witness at the closed pillow mesh (small branch:
both candidates kept). -/
theorem claim_C4_witness :
    boundaryEdgeCount pillowTopo = 0 ∧
    (((pillowMesh.triangles.length ≤ 20 →
      (detect_seams pillowMesh pillowTopo).length =
        (nonTreeCandidates pillowTopo
          (spanningForest pillowTopo pillowMesh.triangles.length).2 false).length) ∧
     (20 < pillowMesh.triangles.length → pillowMesh.triangles.length ≤ 70 →
      (detect_seams pillowMesh pillowTopo).length =
        min (min 2 (max 1 ((nonTreeCandidates pillowTopo
            (spanningForest pillowTopo pillowMesh.triangles.length).2 false).length / 3)))
          (nonTreeCandidates pillowTopo
            (spanningForest pillowTopo pillowMesh.triangles.length).2 false).length) ∧
     (70 < pillowMesh.triangles.length →
      (detect_seams pillowMesh pillowTopo).length =
        min (min 5 (max 1 ((nonTreeCandidates pillowTopo
            (spanningForest pillowTopo pillowMesh.triangles.length).2 false).length / 14)))
          (nonTreeCandidates pillowTopo
            (spanningForest pillowTopo pillowMesh.triangles.length).2 false).length)) ∧
    (∀ p ∈ nonTreeCandidates pillowTopo
        (spanningForest pillowTopo pillowMesh.triangles.length).2 false,
     ∀ q ∈ nonTreeCandidates pillowTopo
        (spanningForest pillowTopo pillowMesh.triangles.length).2 false,
      p.1 ∈ detect_seams pillowMesh pillowTopo →
      q.1 ∉ detect_seams pillowMesh pillowTopo →
        p.2 ≤ q.2)) :=
  ⟨by decide, claim_C4_amended pillowMesh pillowTopo (by decide)⟩

/-! ### Island extraction (`unwrap.cpp`, `extract_islands`, lines 35–114) -/

/-- The per-edge contribution to face `u`'s island adjacency list
(`unwrap.cpp` lines 70–80): seam edges are skipped, and an edge with
two incident faces pushes `f1` onto `adj[f0]` and `f0` onto `adj[f1]`. -/
def islandAdjContrib (u : ℕ) (seams : List ℕ)
    (p : ℕ × ((ℕ × ℕ) × (ℤ × ℤ))) : List (ℕ × ℕ) :=
  if p.1 ∈ seams then []
  else if p.2.2.1 ≠ -1 ∧ p.2.2.2 ≠ -1 then
    (if p.2.2.1 = (u : ℤ) then [(p.2.2.2.toNat, p.1)] else []) ++
      (if p.2.2.2 = (u : ℤ) then [(p.2.2.1.toNat, p.1)] else [])
  else []

/-- The island adjacency list of face `u`: neighbours through interior
non-seam edges, in edge order, each tagged with its edge index. -/
def islandAdj (topo : TopologyInfo) (seams : List ℕ) (u : ℕ) : List (ℕ × ℕ) :=
  topo.edges.enum.foldl (fun acc p => acc ++ islandAdjContrib u seams p) []

/-- Membership in an accumulating fold of list contributions. -/
theorem mem_foldl_append {α β : Type} (f : α → List β) (l : List α)
    (acc : List β) (x : β) :
    x ∈ l.foldl (fun acc a => acc ++ f a) acc ↔ x ∈ acc ∨ ∃ a ∈ l, x ∈ f a := by
  induction l generalizing acc with
  | nil => simp
  | cons a l ih =>
      simp only [List.foldl_cons, ih, List.mem_append, List.mem_cons]
      constructor
      · rintro ((h | h) | ⟨b, hb, hx⟩)
        · exact Or.inl h
        · exact Or.inr ⟨a, Or.inl rfl, h⟩
        · exact Or.inr ⟨b, Or.inr hb, hx⟩
      · rintro (h | ⟨b, hb | hb, hx⟩)
        · exact Or.inl (Or.inl h)
        · exact Or.inl (Or.inr (hb ▸ hx))
        · exact Or.inr ⟨b, hb, hx⟩

/-- Membership characterization of the island adjacency list. -/
theorem mem_islandAdj {topo : TopologyInfo} {seams : List ℕ} {u v e : ℕ} :
    (v, e) ∈ islandAdj topo seams u ↔
      ∃ entry, topo.edges[e]? = some entry ∧ e ∉ seams ∧
        entry.2.1 ≠ -1 ∧ entry.2.2 ≠ -1 ∧
        ((entry.2.1 = (u : ℤ) ∧ entry.2.2.toNat = v) ∨
         (entry.2.2 = (u : ℤ) ∧ entry.2.1.toNat = v)) := by
  unfold islandAdj
  rw [mem_foldl_append]
  simp only [List.not_mem_nil, false_or]
  constructor
  · rintro ⟨⟨i, entry⟩, hp, hx⟩
    unfold islandAdjContrib at hx
    split at hx
    · simp at hx
    · next hseam =>
        split at hx
        · next hfaces =>
            rw [List.mem_append] at hx
            have hkey : i = e ∧
                ((entry.2.1 = (u : ℤ) ∧ entry.2.2.toNat = v) ∨
                 (entry.2.2 = (u : ℤ) ∧ entry.2.1.toNat = v)) := by
              rcases hx with hx | hx
              · split at hx
                · next hf0 =>
                    simp only [List.mem_singleton, Prod.mk.injEq] at hx
                    exact ⟨hx.2.symm, Or.inl ⟨hf0, hx.1.symm⟩⟩
                · simp at hx
              · split at hx
                · next hf1 =>
                    simp only [List.mem_singleton, Prod.mk.injEq] at hx
                    exact ⟨hx.2.symm, Or.inr ⟨hf1, hx.1.symm⟩⟩
                · simp at hx
            obtain ⟨rfl, hor⟩ := hkey
            exact ⟨entry, List.mk_mem_enum_iff_getElem?.mp hp, hseam,
              hfaces.1, hfaces.2, hor⟩
        · simp at hx
  · rintro ⟨entry, hget, hseam, hf0, hf1, hor⟩
    refine ⟨(e, entry), List.mk_mem_enum_iff_getElem?.mpr hget, ?_⟩
    unfold islandAdjContrib
    rw [if_neg hseam, if_pos ⟨hf0, hf1⟩, List.mem_append]
    rcases hor with ⟨hu, hv⟩ | ⟨hu, hv⟩
    · left
      rw [if_pos hu]
      simp [hv]
    · right
      rw [if_pos hu]
      simp [hv]

/-- Well-formedness of a topology against a face count: every stored
incident face is `-1` or a valid face index.  `build_topology` output
always satisfies this; `extract_islands` on ill-formed face indices is
undefined behavior in the C++ (out-of-bounds `adj` indexing). -/
def TopoWF (topo : TopologyInfo) (F : ℕ) : Prop :=
  ∀ p ∈ topo.edges,
    (p.2.1 = -1 ∨ (0 ≤ p.2.1 ∧ p.2.1 < (F : ℤ))) ∧
    (p.2.2 = -1 ∨ (0 ≤ p.2.2 ∧ p.2.2 < (F : ℤ)))

/-- Under well-formedness, island-adjacency neighbours are valid faces. -/
theorem islandAdj_range {topo : TopologyInfo} {seams : List ℕ} {F : ℕ}
    (hwf : TopoWF topo F) {u v e : ℕ} (h : (v, e) ∈ islandAdj topo seams u) :
    v < F := by
  obtain ⟨entry, hget, -, hf0, hf1, hor⟩ := mem_islandAdj.mp h
  have hmem := List.getElem?_mem hget
  obtain ⟨hw0, hw1⟩ := hwf entry hmem
  rcases hor with ⟨-, hv⟩ | ⟨-, hv⟩
  · rcases hw1 with h1 | ⟨h1, h2⟩
    · exact absurd h1 hf1
    · omega
  · rcases hw0 with h1 | ⟨h1, h2⟩
    · exact absurd h1 hf0
    · omega

/-- The island adjacency relation is symmetric under well-formedness. -/
theorem islandAdj_symm {topo : TopologyInfo} {seams : List ℕ} {F : ℕ}
    (hwf : TopoWF topo F) {u v e : ℕ} (h : (v, e) ∈ islandAdj topo seams u) :
    (u, e) ∈ islandAdj topo seams v := by
  obtain ⟨entry, hget, hseam, hf0, hf1, hor⟩ := mem_islandAdj.mp h
  have hmem := List.getElem?_mem hget
  obtain ⟨hw0, hw1⟩ := hwf entry hmem
  refine mem_islandAdj.mpr ⟨entry, hget, hseam, hf0, hf1, ?_⟩
  rcases hor with ⟨hu, hv⟩ | ⟨hu, hv⟩
  · right
    refine ⟨?_, ?_⟩
    · rcases hw1 with h1 | ⟨h1, -⟩
      · exact absurd h1 hf1
      · rw [← hv, Int.toNat_of_nonneg h1]
    · rw [hu]
      exact Int.toNat_natCast u
  · left
    refine ⟨?_, ?_⟩
    · rcases hw0 with h1 | ⟨h1, -⟩
      · exact absurd h1 hf0
      · rw [← hv, Int.toNat_of_nonneg h1]
    · rw [hu]
      exact Int.toNat_natCast u

/-- One visit pass of the island BFS (`unwrap.cpp` lines 97–102): for
each neighbour of the popped face, if unassigned, assign the current
island id and enqueue it.  Returns the updated id array and the list of
newly assigned faces in push order. -/
def visitAssign (F : ℕ) (id : ℤ) :
    List (ℕ × ℕ) → (ℕ → ℤ) → (ℕ → ℤ) × List ℕ
  | [], ids => (ids, [])
  | (v, _) :: rest, ids =>
      if v < F ∧ ids v = -1 then
        ((visitAssign F id rest (Function.update ids v id)).1,
         v :: (visitAssign F id rest (Function.update ids v id)).2)
      else visitAssign F id rest ids

/-- Fuel-driven island BFS: pop, visit neighbours, recurse. -/
def assignAux (adjF : ℕ → List (ℕ × ℕ)) (F : ℕ) (id : ℤ) :
    ℕ → List ℕ → (ℕ → ℤ) → (ℕ → ℤ)
  | 0, _, ids => ids
  | _ + 1, [], ids => ids
  | fuel + 1, u :: rest, ids =>
      assignAux adjF F id fuel
        (rest ++ (visitAssign F id (adjF u) ids).2)
        (visitAssign F id (adjF u) ids).1

/-- One iteration of the `extract_islands` outer loop: skip an assigned
face, otherwise assign the next island id to the face and flood its
component. -/
def extractStep (adjF : ℕ → List (ℕ × ℕ)) (F : ℕ) (st : (ℕ → ℤ) × ℕ)
    (start : ℕ) : (ℕ → ℤ) × ℕ :=
  if st.1 start ≠ -1 then st
  else
    (assignAux adjF F (st.2 : ℤ) (2 * F + 2) [start]
      (Function.update st.1 start (st.2 : ℤ)),
     st.2 + 1)

/-- `extract_islands` from `unwrap.cpp`: initialize every face id to
`-1`, then for each face in order, if unassigned, assign a fresh island
id and flood its connected component through non-seam interior edges.
Returns the per-face island id map and the island count. -/
def extract_islands (mesh : Mesh) (topo : TopologyInfo) (seams : List ℕ) :
    (ℕ → ℤ) × ℕ :=
  (List.range mesh.triangles.length).foldl
    (extractStep (islandAdj topo seams) mesh.triangles.length)
    (fun _ => -1, 0)

/-- The unassigned in-range faces, the BFS termination measure's core. -/
def unassigned (F : ℕ) (ids : ℕ → ℤ) : Finset ℕ :=
  (Finset.range F).filter (fun x => ids x = -1)

/-- `visitAssign` value behaviour: each face either keeps its id, or was
unassigned, in range, a neighbour in the list, and received `id`. -/
theorem visitAssign_values (F : ℕ) (id : ℤ) (nbrs : List (ℕ × ℕ))
    (ids : ℕ → ℤ) (x : ℕ) :
    (visitAssign F id nbrs ids).1 x = ids x ∨
      ((visitAssign F id nbrs ids).1 x = id ∧ ids x = -1 ∧ x < F ∧
        ∃ e, (x, e) ∈ nbrs) := by
  induction nbrs generalizing ids with
  | nil => exact Or.inl rfl
  | cons p rest ih =>
      obtain ⟨v, e⟩ := p
      unfold visitAssign
      split
      · next hv =>
          rcases ih (Function.update ids v id) with h | ⟨h1, h2, h3, e', h4⟩
          · rw [h]
            by_cases hx : x = v
            · subst hx
              rw [Function.update_same]
              exact Or.inr ⟨rfl, hv.2, hv.1, e, List.mem_cons_self _ _⟩
            · rw [Function.update_noteq hx]
              exact Or.inl rfl
          · by_cases hx : x = v
            · subst hx
              rw [Function.update_same] at h2
              exact Or.inr ⟨h1, hv.2, hv.1, e, List.mem_cons_self _ _⟩
            · rw [Function.update_noteq hx] at h2
              exact Or.inr ⟨h1, h2, h3, e', List.mem_cons_of_mem _ h4⟩
      · rcases ih ids with h | ⟨h1, h2, h3, e', h4⟩
        · exact Or.inl h
        · exact Or.inr ⟨h1, h2, h3, e', List.mem_cons_of_mem _ h4⟩

/-- `visitAssign` never unassigns: an assigned face keeps its value. -/
theorem visitAssign_preserve (F : ℕ) {id : ℤ}
    (nbrs : List (ℕ × ℕ)) (ids : ℕ → ℤ) (x : ℕ) (hx : ids x ≠ -1) :
    (visitAssign F id nbrs ids).1 x = ids x := by
  rcases visitAssign_values F id nbrs ids x with h | ⟨-, h2, -⟩
  · exact h
  · exact absurd h2 hx

/-- After `visitAssign`, every in-range neighbour in the list is
assigned. -/
theorem visitAssign_complete (F : ℕ) {id : ℤ} (hid : id ≠ -1)
    (nbrs : List (ℕ × ℕ)) (ids : ℕ → ℤ) :
    ∀ v e, (v, e) ∈ nbrs → v < F → (visitAssign F id nbrs ids).1 v ≠ -1 := by
  induction nbrs generalizing ids with
  | nil => intro v e h; exact absurd h (List.not_mem_nil _)
  | cons p rest ih =>
      obtain ⟨w, e'⟩ := p
      intro v e hmem hv
      unfold visitAssign
      split
      · next hw =>
          rcases List.mem_cons.mp hmem with h | h
          · have hvw : v = w := (Prod.mk.injEq _ _ _ _).mp h |>.1
            subst hvw
            rw [visitAssign_preserve F rest _ v
              (by rw [Function.update_same]; exact hid)]
            rw [Function.update_same]
            exact hid
          · exact ih _ v e h hv
      · next hw =>
          rcases List.mem_cons.mp hmem with h | h
          · have hvw : v = w := (Prod.mk.injEq _ _ _ _).mp h |>.1
            subst hvw
            have : ids v ≠ -1 := by
              intro h0
              exact hw ⟨hv, h0⟩
            rw [visitAssign_preserve F rest ids v this]
            exact this
          · exact ih ids v e h hv

/-- The newly assigned list accounts exactly for the drop in the
unassigned count. -/
theorem visitAssign_card (F : ℕ) {id : ℤ} (hid : id ≠ -1)
    (nbrs : List (ℕ × ℕ)) (ids : ℕ → ℤ) :
    (unassigned F (visitAssign F id nbrs ids).1).card +
        (visitAssign F id nbrs ids).2.length =
      (unassigned F ids).card := by
  induction nbrs generalizing ids with
  | nil => rfl
  | cons p rest ih =>
      obtain ⟨v, e⟩ := p
      unfold visitAssign
      split
      · next hv =>
          simp only [List.length_cons]
          have hcard : (unassigned F (Function.update ids v id)).card + 1 =
              (unassigned F ids).card := by
            have hvmem : v ∈ unassigned F ids := by
              unfold unassigned
              rw [Finset.mem_filter, Finset.mem_range]
              exact ⟨hv.1, by simp [hv.2]⟩
            have hupd : unassigned F (Function.update ids v id) =
                (unassigned F ids).erase v := by
              unfold unassigned
              ext y
              rw [Finset.mem_erase, Finset.mem_filter, Finset.mem_filter]
              simp only [Finset.mem_range]
              constructor
              · rintro ⟨hy1, hy2⟩
                by_cases hyv : y = v
                · subst hyv
                  rw [Function.update_same] at hy2
                  exact absurd hy2 hid
                · rw [Function.update_noteq hyv] at hy2
                  exact ⟨hyv, hy1, hy2⟩
              · rintro ⟨hyv, hy1, hy2⟩
                rw [Function.update_noteq hyv]
                exact ⟨hy1, hy2⟩
            rw [hupd, Finset.card_erase_of_mem hvmem]
            have : 0 < (unassigned F ids).card := Finset.card_pos.mpr ⟨v, hvmem⟩
            omega
          rw [← hcard, ← ih (Function.update ids v id)]
          ring
      · exact ih ids

/-- Adjacency-list reachability relation: `b` occurs in `a`'s list. -/
def listRel (adjF : ℕ → List (ℕ × ℕ)) (a b : ℕ) : Prop :=
  ∃ e, (b, e) ∈ adjF a

/-- A changed face appears in the newly assigned list. -/
theorem visitAssign_changed_mem (F : ℕ) (id : ℤ) (nbrs : List (ℕ × ℕ))
    (ids : ℕ → ℤ) (x : ℕ)
    (h : (visitAssign F id nbrs ids).1 x ≠ ids x) :
    x ∈ (visitAssign F id nbrs ids).2 := by
  induction nbrs generalizing ids with
  | nil => exact absurd rfl h
  | cons p rest ih =>
      obtain ⟨v, e⟩ := p
      unfold visitAssign at h ⊢
      split at h
      · next hv =>
          rw [if_pos hv]
          by_cases hx : x = v
          · exact hx ▸ List.mem_cons_self _ _
          · refine List.mem_cons_of_mem _ (ih (Function.update ids v id) ?_)
            intro heq
            rw [heq, Function.update_noteq hx] at h
            exact h rfl
      · next hv =>
          rw [if_neg hv]
          exact ih ids h

/-- A newly assigned face occurs in the neighbour list. -/
theorem visitAssign_newly_nbr (F : ℕ) (id : ℤ) (nbrs : List (ℕ × ℕ))
    (ids : ℕ → ℤ) (w : ℕ)
    (h : w ∈ (visitAssign F id nbrs ids).2) : ∃ e, (w, e) ∈ nbrs := by
  induction nbrs generalizing ids with
  | nil => exact absurd h (List.not_mem_nil _)
  | cons p rest ih =>
      obtain ⟨v, e⟩ := p
      unfold visitAssign at h
      split at h
      · rcases List.mem_cons.mp h with h1 | h1
        · exact ⟨e, h1 ▸ List.mem_cons_self _ _⟩
        · obtain ⟨e', he'⟩ := ih _ h1
          exact ⟨e', List.mem_cons_of_mem _ he'⟩
      · obtain ⟨e', he'⟩ := ih _ h
        exact ⟨e', List.mem_cons_of_mem _ he'⟩

/-- An assigned face keeps its value through the whole BFS. -/
theorem assignAux_preserve (adjF : ℕ → List (ℕ × ℕ)) (F : ℕ) (id : ℤ) :
    ∀ (fuel : ℕ) (queue : List ℕ) (ids : ℕ → ℤ) (x : ℕ), ids x ≠ -1 →
      assignAux adjF F id fuel queue ids x = ids x := by
  intro fuel
  induction fuel with
  | zero => intro queue ids x h; rfl
  | succ fuel ih =>
      intro queue ids x h
      cases queue with
      | nil => rfl
      | cons u rest =>
          unfold assignAux
          rw [ih _ _ x (by rw [visitAssign_preserve F _ _ x h]; exact h),
            visitAssign_preserve F _ _ x h]

/-- BFS soundness: a face whose id changed received the island id and is
reachable from some queued face. -/
theorem assignAux_sound (adjF : ℕ → List (ℕ × ℕ)) (F : ℕ) (id : ℤ) :
    ∀ (fuel : ℕ) (queue : List ℕ) (ids : ℕ → ℤ) (x : ℕ),
      assignAux adjF F id fuel queue ids x ≠ ids x →
      (assignAux adjF F id fuel queue ids x = id ∧
        ∃ u ∈ queue, Relation.ReflTransGen (listRel adjF) u x) := by
  intro fuel
  induction fuel with
  | zero => intro queue ids x h; exact absurd rfl h
  | succ fuel ih =>
      intro queue ids x h
      cases queue with
      | nil => exact absurd rfl h
      | cons u rest =>
          unfold assignAux at h ⊢
          by_cases h1 : assignAux adjF F id fuel
              (rest ++ (visitAssign F id (adjF u) ids).2)
              (visitAssign F id (adjF u) ids).1 x =
                (visitAssign F id (adjF u) ids).1 x
          · rw [h1] at h ⊢
            rcases visitAssign_values F id (adjF u) ids x with h2 | ⟨h2, -, -, e, h4⟩
            · exact absurd h2 h
            · exact ⟨h2, u, List.mem_cons_self _ _,
                Relation.ReflTransGen.single ⟨e, h4⟩⟩
          · obtain ⟨hval, u', hu', hreach⟩ := ih _ _ x h1
            refine ⟨hval, ?_⟩
            rcases List.mem_append.mp hu' with hu' | hu'
            · exact ⟨u', List.mem_cons_of_mem _ hu', hreach⟩
            · obtain ⟨w, hw⟩ := visitAssign_newly_nbr F id (adjF u) ids u' hu'
              exact ⟨u, List.mem_cons_self _ _,
                Relation.ReflTransGen.head ⟨w, hw⟩ hreach⟩

/-- BFS completeness: with sufficient fuel, starting from a state where
every assigned face is either still queued or has all its in-range
neighbours assigned, the final assignment is adjacency-closed. -/
theorem assignAux_closed (adjF : ℕ → List (ℕ × ℕ)) (F : ℕ) {id : ℤ}
    (hid : id ≠ -1) :
    ∀ (fuel : ℕ) (queue : List ℕ) (ids : ℕ → ℤ),
      2 * (unassigned F ids).card + queue.length < fuel →
      (∀ x, ids x ≠ -1 → x ∈ queue ∨
        (∀ v e, (v, e) ∈ adjF x → v < F → ids v ≠ -1)) →
      ∀ x, assignAux adjF F id fuel queue ids x ≠ -1 →
        ∀ v e, (v, e) ∈ adjF x → v < F →
          assignAux adjF F id fuel queue ids v ≠ -1 := by
  intro fuel
  induction fuel with
  | zero => intro queue ids hfuel; exact absurd hfuel (Nat.not_lt_zero _)
  | succ fuel ih =>
      intro queue ids hfuel hinv
      cases queue with
      | nil =>
          intro x hx v e hve hv
          rcases hinv x hx with h | h
          · exact absurd h (List.not_mem_nil _)
          · exact h v e hve hv
      | cons u rest =>
          unfold assignAux
          have hcard := visitAssign_card F hid (adjF u) ids
          have hfuel' : 2 * (unassigned F (visitAssign F id (adjF u) ids).1).card +
              (rest ++ (visitAssign F id (adjF u) ids).2).length < fuel := by
            rw [List.length_append]
            simp only [List.length_cons] at hfuel
            omega
          have hmono : ∀ y, ids y ≠ -1 →
              (visitAssign F id (adjF u) ids).1 y ≠ -1 := by
            intro y hy
            rw [visitAssign_preserve F _ _ y hy]
            exact hy
          have hinv' : ∀ x, (visitAssign F id (adjF u) ids).1 x ≠ -1 →
              x ∈ rest ++ (visitAssign F id (adjF u) ids).2 ∨
              (∀ v e, (v, e) ∈ adjF x → v < F →
                (visitAssign F id (adjF u) ids).1 v ≠ -1) := by
            intro x hx
            by_cases hx0 : ids x = -1
            · left
              refine List.mem_append.mpr (Or.inr ?_)
              refine visitAssign_changed_mem F id (adjF u) ids x ?_
              intro heq
              rw [heq] at hx
              exact hx hx0
            · by_cases hxu : x = u
              · subst hxu
                right
                intro v e hve hv
                exact visitAssign_complete F hid (adjF x) ids v e hve hv
              · rcases hinv x hx0 with h | h
                · rcases List.mem_cons.mp h with h1 | h1
                  · exact absurd h1 hxu
                  · exact Or.inl (List.mem_append.mpr (Or.inl h1))
                · right
                  intro v e hve hv
                  exact hmono v (h v e hve hv)
          exact ih _ _ hfuel' hinv'

/-- Assignedness propagates along reachability in a closed state. -/
theorem closed_reach (adjF : ℕ → List (ℕ × ℕ)) (F : ℕ) (ids : ℕ → ℤ)
    (hrange : ∀ u v e, (v, e) ∈ adjF u → v < F)
    (hclosed : ∀ x, ids x ≠ -1 → ∀ v e, (v, e) ∈ adjF x → v < F → ids v ≠ -1)
    {a b : ℕ} (hab : Relation.ReflTransGen (listRel adjF) a b)
    (ha : ids a ≠ -1) : ids b ≠ -1 := by
  induction hab with
  | refl => exact ha
  | tail hxy hyz ih =>
      obtain ⟨e, he⟩ := hyz
      exact hclosed _ ih _ e he (hrange _ _ e he)

/-- The full effect of one island flood: starting from a start face `s`
unassigned in a closed state, the BFS assigns `id` to exactly the faces
reachable from `s` and leaves every other face untouched. -/
theorem assignAux_component (adjF : ℕ → List (ℕ × ℕ)) (F : ℕ)
    (hrange : ∀ u v e, (v, e) ∈ adjF u → v < F)
    (hsymm : ∀ u v e, (v, e) ∈ adjF u → ∃ e', (u, e') ∈ adjF v)
    {id : ℤ} (hid : id ≠ -1) (s : ℕ) (ids : ℕ → ℤ) (hs : ids s = -1)
    (hclosed : ∀ x, ids x ≠ -1 → ∀ v e, (v, e) ∈ adjF x → v < F → ids v ≠ -1) :
    (∀ x, Relation.ReflTransGen (listRel adjF) s x →
      assignAux adjF F id (2 * F + 2) [s] (Function.update ids s id) x = id) ∧
    (∀ x, ¬ Relation.ReflTransGen (listRel adjF) s x →
      assignAux adjF F id (2 * F + 2) [s] (Function.update ids s id) x = ids x) ∧
    (∀ x, assignAux adjF F id (2 * F + 2) [s] (Function.update ids s id) x ≠ -1 →
      ∀ v e, (v, e) ∈ adjF x → v < F →
        assignAux adjF F id (2 * F + 2) [s] (Function.update ids s id) v ≠ -1) := by
  have hlistsymm : Symmetric (listRel adjF) := by
    intro a b ⟨e, he⟩
    exact hsymm a b e he
  -- every face reachable from s is unassigned in ids
  have hdisj : ∀ x, Relation.ReflTransGen (listRel adjF) s x → ids x = -1 := by
    intro x hx
    by_contra hx0
    exact closed_reach adjF F ids hrange hclosed
      (Relation.ReflTransGen.symmetric hlistsymm hx) hx0 hs
  have hfuel : 2 * (unassigned F (Function.update ids s id)).card +
      [s].length < 2 * F + 2 := by
    have hle : (unassigned F (Function.update ids s id)).card ≤ F := by
      calc (unassigned F (Function.update ids s id)).card
          ≤ (Finset.range F).card := Finset.card_filter_le _ _
        _ = F := Finset.card_range F
    simp only [List.length_cons, List.length_nil]
    omega
  have hinv : ∀ x, Function.update ids s id x ≠ -1 → x ∈ [s] ∨
      (∀ v e, (v, e) ∈ adjF x → v < F → Function.update ids s id v ≠ -1) := by
    intro x hx
    by_cases hxs : x = s
    · exact Or.inl (hxs ▸ List.mem_cons_self _ _)
    · rw [Function.update_noteq hxs] at hx
      right
      intro v e hve hv
      by_cases hvs : v = s
      · rw [hvs, Function.update_same]
        exact hid
      · rw [Function.update_noteq hvs]
        exact hclosed x hx v e hve hv
  have hrclosed := assignAux_closed adjF F hid (2 * F + 2) [s]
    (Function.update ids s id) hfuel hinv
  have hrs : assignAux adjF F id (2 * F + 2) [s]
      (Function.update ids s id) s = id := by
    rw [assignAux_preserve adjF F id _ _ _ s
      (by rw [Function.update_same]; exact hid), Function.update_same]
  -- every face reachable from s ends assigned
  have hreach_ne : ∀ x, Relation.ReflTransGen (listRel adjF) s x →
      assignAux adjF F id (2 * F + 2) [s] (Function.update ids s id) x ≠ -1 := by
    intro x hx
    induction hx with
    | refl => rw [hrs]; exact hid
    | tail hxy hyz ih =>
        obtain ⟨e, he⟩ := hyz
        exact hrclosed _ ih _ e he (hrange _ _ e he)
  refine ⟨?_, ?_, hrclosed⟩
  · intro x hx
    by_cases hxs : x = s
    · exact hxs ▸ hrs
    · have h1 : Function.update ids s id x = -1 := by
        rw [Function.update_noteq hxs]
        exact hdisj x hx
      have h2 := hreach_ne x hx
      have h3 : assignAux adjF F id (2 * F + 2) [s]
          (Function.update ids s id) x ≠ Function.update ids s id x := by
        rw [h1]
        exact h2
      exact (assignAux_sound adjF F id _ _ _ x h3).1
  · intro x hx
    have hxs : x ≠ s := fun h => hx (h ▸ Relation.ReflTransGen.refl)
    by_cases h3 : assignAux adjF F id (2 * F + 2) [s]
        (Function.update ids s id) x = Function.update ids s id x
    · rw [h3, Function.update_noteq hxs]
    · obtain ⟨-, u, hu, hreach⟩ := assignAux_sound adjF F id _ _ _ x h3
      rcases List.mem_cons.mp hu with h4 | h4
      · exact absurd (h4 ▸ hreach) hx
      · exact absurd h4 (List.not_mem_nil _)

/-- The outer-loop invariant of `extract_islands`: ids are `-1` or in
`[0, next)`; the assigned set is adjacency-closed; and two assigned
faces share an id exactly when they are mutually reachable. -/
def ExtractInv (adjF : ℕ → List (ℕ × ℕ)) (F : ℕ) (st : (ℕ → ℤ) × ℕ) : Prop :=
  (∀ x, st.1 x = -1 ∨ (0 ≤ st.1 x ∧ st.1 x < (st.2 : ℤ))) ∧
  (∀ x, st.1 x ≠ -1 → ∀ v e, (v, e) ∈ adjF x → v < F → st.1 v ≠ -1) ∧
  (∀ x y, st.1 x ≠ -1 → st.1 y ≠ -1 →
    (st.1 x = st.1 y ↔ Relation.ReflTransGen (listRel adjF) x y))

/-- One `extract_islands` iteration preserves the invariant, leaves
every previously assigned face's id unchanged, and assigns the
processed face. -/
theorem extractStep_inv (adjF : ℕ → List (ℕ × ℕ)) (F : ℕ)
    (hrange : ∀ u v e, (v, e) ∈ adjF u → v < F)
    (hsymm : ∀ u v e, (v, e) ∈ adjF u → ∃ e', (u, e') ∈ adjF v)
    (st : (ℕ → ℤ) × ℕ) (hinv : ExtractInv adjF F st) (start : ℕ) :
    ExtractInv adjF F (extractStep adjF F st start) ∧
    (extractStep adjF F st start).1 start ≠ -1 ∧
    (∀ x, st.1 x ≠ -1 → (extractStep adjF F st start).1 x = st.1 x) := by
  obtain ⟨ha, hb, hc⟩ := hinv
  unfold extractStep
  by_cases hs : st.1 start ≠ -1
  · rw [if_pos hs]
    exact ⟨⟨ha, hb, hc⟩, hs, fun x _ => rfl⟩
  · rw [if_neg hs]
    push_neg at hs
    have hid : (st.2 : ℤ) ≠ -1 := by omega
    have hlistsymm : Symmetric (listRel adjF) := by
      intro a b ⟨e, he⟩
      exact hsymm a b e he
    obtain ⟨hK, hNK, hcl⟩ := assignAux_component adjF F hrange hsymm hid
      start st.1 hs hb
    set r := assignAux adjF F (st.2 : ℤ) (2 * F + 2) [start]
      (Function.update st.1 start (st.2 : ℤ)) with hr
    have hpres : ∀ x, st.1 x ≠ -1 → r x = st.1 x := by
      intro x hx
      have hxs : x ≠ start := fun h => hx (h ▸ hs)
      rw [hr, assignAux_preserve adjF F _ _ _ _ x
        (by rw [Function.update_noteq hxs]; exact hx),
        Function.update_noteq hxs]
    -- every face is either in the new component (value st.2) or keeps
    -- its old id
    have hcases : ∀ x, (Relation.ReflTransGen (listRel adjF) start x ∧
        r x = (st.2 : ℤ)) ∨
        (¬ Relation.ReflTransGen (listRel adjF) start x ∧ r x = st.1 x) := by
      intro x
      by_cases hx : Relation.ReflTransGen (listRel adjF) start x
      · exact Or.inl ⟨hx, hK x hx⟩
      · exact Or.inr ⟨hx, hNK x hx⟩
    refine ⟨⟨?_, ?_, ?_⟩, ?_, hpres⟩
    · intro x
      dsimp only
      rcases hcases x with ⟨-, hv⟩ | ⟨-, hv⟩
      · right
        rw [hv]
        constructor
        · exact Int.natCast_nonneg st.2
        · push_cast
          omega
      · rcases ha x with h | ⟨h1, h2⟩
        · exact Or.inl (hv ▸ h)
        · right
          rw [hv]
          refine ⟨h1, ?_⟩
          push_cast
          omega
    · exact hcl
    · intro x y hx hy
      dsimp only at hx hy ⊢
      rcases hcases x with ⟨hKx, hvx⟩ | ⟨hNKx, hvx⟩ <;>
        rcases hcases y with ⟨hKy, hvy⟩ | ⟨hNKy, hvy⟩
      · refine iff_of_true (by rw [hvx, hvy]) ?_
        exact Relation.ReflTransGen.trans
          (Relation.ReflTransGen.symmetric hlistsymm hKx) hKy
      · refine iff_of_false ?_ ?_
        · rw [hvx, hvy]
          have := hvy ▸ hy
          rcases ha y with h | ⟨-, h2⟩
          · exact absurd h this
          · intro heq
            rw [← heq] at h2
            omega
        · intro hxy
          exact hNKy (Relation.ReflTransGen.trans hKx hxy)
      · refine iff_of_false ?_ ?_
        · rw [hvx, hvy]
          have := hvx ▸ hx
          rcases ha x with h | ⟨-, h2⟩
          · exact absurd h this
          · intro heq
            rw [heq] at h2
            omega
        · intro hxy
          exact hNKx (Relation.ReflTransGen.trans hKy
            (Relation.ReflTransGen.symmetric hlistsymm hxy))
      · rw [hvx, hvy]
        exact hc x y (hvx ▸ hx) (hvy ▸ hy)
    · dsimp only
      have : r start = (st.2 : ℤ) := hK start Relation.ReflTransGen.refl
      rw [this]
      exact hid

/-- The whole outer loop: the invariant holds at the end, every
processed face is assigned, and prior assignments survive. -/
theorem extractLoop_inv (adjF : ℕ → List (ℕ × ℕ)) (F : ℕ)
    (hrange : ∀ u v e, (v, e) ∈ adjF u → v < F)
    (hsymm : ∀ u v e, (v, e) ∈ adjF u → ∃ e', (u, e') ∈ adjF v) :
    ∀ (l : List ℕ) (st : (ℕ → ℤ) × ℕ), ExtractInv adjF F st →
      ExtractInv adjF F (l.foldl (extractStep adjF F) st) ∧
      (∀ f ∈ l, (l.foldl (extractStep adjF F) st).1 f ≠ -1) ∧
      (∀ x, st.1 x ≠ -1 → (l.foldl (extractStep adjF F) st).1 x = st.1 x) := by
  intro l
  induction l with
  | nil => exact fun st h => ⟨h, by simp, fun x _ => rfl⟩
  | cons a l ih =>
      intro st hinv
      obtain ⟨hinv1, hassigned, hpres1⟩ := extractStep_inv adjF F hrange hsymm st hinv a
      obtain ⟨hinv2, hall, hpres2⟩ := ih (extractStep adjF F st a) hinv1
      refine ⟨hinv2, ?_, ?_⟩
      · intro f hf
        rcases List.mem_cons.mp hf with rfl | hf
        · rw [List.foldl_cons, hpres2 f hassigned]
          exact hassigned
        · exact hall f hf
      · intro x hx
        rw [List.foldl_cons, hpres2 x (by rw [hpres1 x hx]; exact hx),
          hpres1 x hx]

/-- The claim's path relation: two faces are adjacent when some
interior (two-incident-face) edge outside the seam set has exactly
these two incident faces. -/
def IslandAdjacent (topo : TopologyInfo) (seams : List ℕ) (a b : ℕ) : Prop :=
  ∃ e entry, topo.edges[e]? = some entry ∧ e ∉ seams ∧
    entry.2.1 ≠ -1 ∧ entry.2.2 ≠ -1 ∧
    ((entry.2.1 = (a : ℤ) ∧ entry.2.2 = (b : ℤ)) ∨
     (entry.2.1 = (b : ℤ) ∧ entry.2.2 = (a : ℤ)))

/-- Connectivity by a path of interior non-seam edges. -/
def IslandReach (topo : TopologyInfo) (seams : List ℕ) : ℕ → ℕ → Prop :=
  Relation.ReflTransGen (IslandAdjacent topo seams)

/-- Under well-formedness, the code's adjacency lists realize exactly
the claim's adjacency relation. -/
theorem listRel_islandAdj {topo : TopologyInfo} {seams : List ℕ} {F : ℕ}
    (hwf : TopoWF topo F) (a b : ℕ) :
    listRel (islandAdj topo seams) a b ↔ IslandAdjacent topo seams a b := by
  constructor
  · rintro ⟨e, he⟩
    obtain ⟨entry, hget, hseam, hf0, hf1, hor⟩ := mem_islandAdj.mp he
    obtain ⟨hw0, hw1⟩ := hwf entry (List.getElem?_mem hget)
    refine ⟨e, entry, hget, hseam, hf0, hf1, ?_⟩
    rcases hor with ⟨hu, hv⟩ | ⟨hu, hv⟩
    · left
      refine ⟨hu, ?_⟩
      rcases hw1 with h | ⟨h, -⟩
      · exact absurd h hf1
      · rw [← hv, Int.toNat_of_nonneg h]
    · right
      refine ⟨?_, hu⟩
      rcases hw0 with h | ⟨h, -⟩
      · exact absurd h hf0
      · rw [← hv, Int.toNat_of_nonneg h]
  · rintro ⟨e, entry, hget, hseam, hf0, hf1, hor⟩
    refine ⟨e, mem_islandAdj.mpr ⟨entry, hget, hseam, hf0, hf1, ?_⟩⟩
    rcases hor with ⟨h1, h2⟩ | ⟨h1, h2⟩
    · left
      exact ⟨h1, by rw [h2]; exact Int.toNat_natCast b⟩
    · right
      exact ⟨h2, by rw [h1]; exact Int.toNat_natCast b⟩

/-- Reflexive-transitive closures of equivalent relations coincide. -/
theorem rtg_congr {r s : ℕ → ℕ → Prop} (h : ∀ a b, r a b ↔ s a b) (a b : ℕ) :
    Relation.ReflTransGen r a b ↔ Relation.ReflTransGen s a b := by
  have hrs : r = s := by
    funext x y
    exact propext (h x y)
  rw [hrs]

/-- C1: on a well-formed topology, `extract_islands` assigns every face
exactly one island id in `[0, num_islands)`, and two faces share an id
exactly when they are connected by a path of interior non-seam edges. -/
theorem claim_C1_island_partition (mesh : Mesh) (topo : TopologyInfo)
    (seams : List ℕ) (hwf : TopoWF topo mesh.triangles.length) :
    (∀ f, f < mesh.triangles.length →
      0 ≤ (extract_islands mesh topo seams).1 f ∧
      (extract_islands mesh topo seams).1 f <
        ((extract_islands mesh topo seams).2 : ℤ)) ∧
    (∀ f g, f < mesh.triangles.length → g < mesh.triangles.length →
      ((extract_islands mesh topo seams).1 f =
          (extract_islands mesh topo seams).1 g ↔
        IslandReach topo seams f g)) := by
  have hrange : ∀ u v e, (v, e) ∈ islandAdj topo seams u →
      v < mesh.triangles.length := by
    intro u v e h
    exact islandAdj_range hwf h
  have hsymm : ∀ u v e, (v, e) ∈ islandAdj topo seams u →
      ∃ e', (u, e') ∈ islandAdj topo seams v := by
    intro u v e h
    exact ⟨e, islandAdj_symm hwf h⟩
  have hinv0 : ExtractInv (islandAdj topo seams) mesh.triangles.length
      (fun _ => -1, 0) := by
    refine ⟨fun x => Or.inl rfl, fun x hx => absurd rfl hx,
      fun x y hx _ => absurd rfl hx⟩
  obtain ⟨⟨ha, -, hc⟩, hall, -⟩ := extractLoop_inv (islandAdj topo seams)
    mesh.triangles.length hrange hsymm (List.range mesh.triangles.length)
    (fun _ => -1, 0) hinv0
  unfold extract_islands
  have htotal : ∀ f, f < mesh.triangles.length →
      ((List.range mesh.triangles.length).foldl
        (extractStep (islandAdj topo seams) mesh.triangles.length)
        (fun _ => -1, 0)).1 f ≠ -1 := by
    intro f hf
    exact hall f (List.mem_range.mpr hf)
  constructor
  · intro f hf
    rcases ha f with h | h
    · exact absurd h (htotal f hf)
    · exact h
  · intro f g hf hg
    rw [hc f g (htotal f hf) (htotal g hg)]
    exact rtg_congr (listRel_islandAdj hwf) f g

/-- C1 witness: a two-triangle mesh sharing an interior edge with no
seams — both faces satisfy the partition and connectivity property. -/
theorem claim_C1_witness :
    TopoWF pillowTopo pillowMesh.triangles.length ∧
    ((∀ f, f < pillowMesh.triangles.length →
      0 ≤ (extract_islands pillowMesh pillowTopo []).1 f ∧
      (extract_islands pillowMesh pillowTopo []).1 f <
        ((extract_islands pillowMesh pillowTopo []).2 : ℤ)) ∧
    (∀ f g, f < pillowMesh.triangles.length → g < pillowMesh.triangles.length →
      ((extract_islands pillowMesh pillowTopo []).1 f =
          (extract_islands pillowMesh pillowTopo []).1 g ↔
        IslandReach pillowTopo [] f g))) :=
  ⟨by unfold TopoWF; decide,
   claim_C1_island_partition pillowMesh pillowTopo [] (by unfold TopoWF; decide)⟩

/-! ### Island packing (`packing.cpp`, `pack_uv_islands`) -/

/-- The per-island record of `packing.cpp` (`struct Island`).  The C
code initializes the bounding box to the `±FLT_MAX` sentinels and later
tests `min_u == FLT_MAX` for emptiness; the untouched sentinel state is
modelled as `box = none`. -/
structure PIsland where
  idx : ℕ
  box : Option (ℚ × ℚ × ℚ × ℚ)
  verts : List ℕ
  deriving DecidableEq

/-- `isl.width = max_u - min_u` (0 for an empty island). -/
def PIsland.width (i : PIsland) : ℚ :=
  match i.box with
  | none => 0
  | some (a, b, _, _) => b - a

/-- `isl.height = max_v - min_v` (0 for an empty island). -/
def PIsland.height (i : PIsland) : ℚ :=
  match i.box with
  | none => 0
  | some (_, _, c, d) => d - c

/-- `isl.min_u` (only read for non-empty islands). -/
def PIsland.minU (i : PIsland) : ℚ :=
  match i.box with
  | none => 0
  | some (a, _, _, _) => a

/-- `isl.min_v` (only read for non-empty islands). -/
def PIsland.minV (i : PIsland) : ℚ :=
  match i.box with
  | none => 0
  | some (_, _, c, _) => c

/-- Fold one UV point into a bounding box (the `min_float`/`max_float`
updates; the first point replaces the sentinels). -/
def boxUpdate (box : Option (ℚ × ℚ × ℚ × ℚ)) (uv : ℚ × ℚ) :
    Option (ℚ × ℚ × ℚ × ℚ) :=
  match box with
  | none => some (uv.1, uv.1, uv.2, uv.2)
  | some (a, b, c, d) =>
      some (min a uv.1, max b uv.1, min c uv.2, max d uv.2)

/-- The island record at index `i` (`islands[island_id]`). -/
def islAt (l : List PIsland) (i : ℕ) : PIsland := l.getD i ⟨0, none, []⟩

/-- Record vertex `v` into island `i`: push it and grow the box. -/
def claimVert (uvs : ℕ → ℚ × ℚ) (islands : List PIsland) (i v : ℕ) :
    List PIsland :=
  islands.set i
    { islAt islands i with
      box := boxUpdate (islAt islands i).box (uvs v),
      verts := (islAt islands i).verts ++ [v] }

/-- STEP 1 of `pack_uv_islands` (lines 103–128): iterate faces in
order; a face with a valid island id claims each of its vertices for
that island the first time the vertex is seen, growing that island's
bounding box and vertex list. -/
def buildIslands (uvs : ℕ → ℚ × ℚ) (tris : List (ℕ × ℕ × ℕ))
    (fids : ℕ → ℤ) (n : ℕ) : (ℕ → Option ℕ) × List PIsland :=
  tris.enum.foldl
    (fun st p =>
      if 0 ≤ fids p.1 ∧ fids p.1 < (n : ℤ) then
        [p.2.1, p.2.2.1, p.2.2.2].foldl
          (fun st2 v =>
            match st2.1 v with
            | some _ => st2
            | none =>
                (Function.update st2.1 v (some (fids p.1).toNat),
                 claimVert uvs st2.2 (fids p.1).toNat v))
          st
      else st)
    (fun _ => none, (List.range n).map (fun i => ⟨i, none, []⟩))

/-- Sort order of STEP 2: height descending (`a.height > b.height`
under `std::sort`; one permitted execution realized by a stable
insertion sort). -/
def packLE (a b : PIsland) : Prop := b.height ≤ a.height

instance : DecidableRel packLE := fun a b => by
  unfold packLE; infer_instance

/-- The shelf-packing state of STEP 3. -/
structure ShelfState where
  curX : ℚ
  curY : ℚ
  shelfH : ℚ
  maxW : ℚ
  maxH : ℚ
  placed : List (PIsland × ℚ × ℚ)

/-- One placement step (lines 164–186): skip zero-width islands; wrap
to a new shelf when the island exceeds the unit map width and the
current shelf is non-empty; place, advance the cursor by width plus
margin, raise the shelf, and track the overall extents. -/
def placeStep (margin : ℚ) (s : ShelfState) (isl : PIsland) : ShelfState :=
  if isl.width = 0 then s
  else
    let wrap := 1 < s.curX + isl.width ∧ 0 < s.curX
    let x0 : ℚ := if wrap then 0 else s.curX
    let y0 : ℚ := if wrap then s.curY + s.shelfH + margin else s.curY
    let h0 : ℚ := if wrap then 0 else s.shelfH
    { curX := x0 + isl.width + margin
      curY := y0
      shelfH := max h0 isl.height
      maxW := max s.maxW (x0 + isl.width)
      maxH := max s.maxH (y0 + isl.height)
      placed := s.placed ++ [(isl, x0, y0)] }

/-- STEP 3 over the sorted island list. -/
def placeIslands (margin : ℚ) (islands : List PIsland) : ShelfState :=
  islands.foldl (placeStep margin) ⟨0, 0, 0, 0, 0, []⟩

/-- STEP 4 (lines 189–200): move each placed island's vertices by its
offset `(target − min corner)`. -/
def applyOffsets (uvs : ℕ → ℚ × ℚ) (placed : List (PIsland × ℚ × ℚ)) :
    ℕ → ℚ × ℚ :=
  placed.foldl
    (fun uv p =>
      p.1.verts.foldl
        (fun uv2 v =>
          Function.update uv2 v
            ((uv2 v).1 + (p.2.1 - p.1.minU), (uv2 v).2 + (p.2.2 - p.1.minV)))
        uv)
    uvs

/-- The STEP 5 global scale: `1 / max(packed_max_w, packed_max_h)`,
overridden to 1 when `packed_max_w == 0`. -/
def packScale (s : ShelfState) : ℚ :=
  if s.maxW = 0 then 1 else 1 / max s.maxW s.maxH

/-- `pack_uv_islands` from `packing.cpp`: single-island inputs are
returned unchanged; otherwise build the per-island boxes and vertex
lists, sort by height descending, shelf-place, translate each placed
island, and scale every vertex of the mesh into the unit square. -/
def pack_uv_islands (numVerts : ℕ) (tris : List (ℕ × ℕ × ℕ))
    (uvs : ℕ → ℚ × ℚ) (fids : ℕ → ℤ) (numIslands : ℕ) (margin : ℚ) :
    ℕ → ℚ × ℚ :=
  if numIslands ≤ 1 then uvs
  else
    let b := buildIslands uvs tris fids numIslands
    let s := placeIslands margin (b.2.insertionSort packLE)
    let uvs2 := applyOffsets uvs s.placed
    fun v =>
      if v < numVerts then
        ((uvs2 v).1 * packScale s, (uvs2 v).2 * packScale s)
      else uvs2 v

/-- Setting an in-range index changes exactly that `islAt`. -/
theorem islAt_set_self {l : List PIsland} {i : ℕ} (h : i < l.length)
    (x : PIsland) : islAt (l.set i x) i = x := by
  unfold islAt
  rw [List.getD_eq_getElem?_getD, List.getElem?_set]
  rw [if_pos rfl, if_pos h]
  rfl

/-- Setting one index leaves the others' `islAt` unchanged. -/
theorem islAt_set_ne {l : List PIsland} {i j : ℕ} (h : i ≠ j) (x : PIsland) :
    islAt (l.set i x) j = islAt l j := by
  unfold islAt
  rw [List.getD_eq_getElem?_getD, List.getElem?_set_ne h,
    ← List.getD_eq_getElem?_getD]

/-- Overwriting an entry of `range n` with its own value is a no-op. -/
theorem range_set_self (n i : ℕ) : (List.range n).set i i = List.range n := by
  apply List.ext_getElem?
  intro j
  rw [List.getElem?_set]
  by_cases hij : i = j
  · subst hij
    by_cases hi : i < n
    · rw [if_pos rfl, if_pos (by simpa using hi), List.getElem?_range hi]
    · rw [if_pos rfl, if_neg (by simpa using hi)]
      exact (List.getElem?_eq_none (by simpa using hi)).symm
  · rw [if_neg hij]

/-- The `pack_uv_islands` STEP-1 invariant: island indices are intact,
assignments point to valid islands, each island's vertex list holds
exactly the vertices assigned to it with no duplicates, and each box is
the fold of its own vertices' UVs. -/
def BuildInv (uvs : ℕ → ℚ × ℚ) (n : ℕ)
    (st : (ℕ → Option ℕ) × List PIsland) : Prop :=
  st.2.map PIsland.idx = List.range n ∧
  (∀ v i, st.1 v = some i → i < n) ∧
  (∀ i, i < n → ∀ v ∈ (islAt st.2 i).verts, st.1 v = some i) ∧
  (∀ v i, st.1 v = some i → v ∈ (islAt st.2 i).verts) ∧
  (∀ i, i < n → (islAt st.2 i).verts.Nodup) ∧
  (∀ i, i < n → (islAt st.2 i).box =
    (islAt st.2 i).verts.foldl (fun bx w => boxUpdate bx (uvs w)) none)

/-- Under the invariant the island list has length `n`. -/
theorem BuildInv.length {uvs n st} (h : BuildInv uvs n st) :
    st.2.length = n := by
  have := congrArg List.length h.1
  simpa using this

/-- Under the invariant the record at `i < n` carries index `i`. -/
theorem BuildInv.idx_eq {uvs n st} (h : BuildInv uvs n st) {i : ℕ}
    (hi : i < n) : (islAt st.2 i).idx = i := by
  have hlen : st.2.length = n := h.length
  have h1 : (st.2.map PIsland.idx)[i]? = some i := by
    rw [h.1, List.getElem?_range hi]
  rw [List.getElem?_map] at h1
  have h2 : st.2[i]? = some (islAt st.2 i) := by
    unfold islAt
    rw [List.getD_eq_getElem?_getD]
    cases h3 : st.2[i]? with
    | none =>
        rw [List.getElem?_eq_none_iff] at h3
        omega
    | some x => rfl
  rw [h2] at h1
  injection h1

/-- One inner vertex step of STEP 1 preserves the invariant. -/
theorem buildVertStep_inv (uvs : ℕ → ℚ × ℚ) (n : ℕ) (i : ℕ) (hi : i < n)
    (st : (ℕ → Option ℕ) × List PIsland) (hinv : BuildInv uvs n st) (v : ℕ) :
    BuildInv uvs n
      (match st.1 v with
        | some _ => st
        | none => (Function.update st.1 v (some i), claimVert uvs st.2 i v)) := by
  obtain ⟨h1, h2, h3, h4, h5, h6⟩ := hinv
  cases hv : st.1 v with
  | some j => exact ⟨h1, h2, h3, h4, h5, h6⟩
  | none =>
      show BuildInv uvs n (Function.update st.1 v (some i), claimVert uvs st.2 i v)
      have hlen : st.2.length = n := BuildInv.length ⟨h1, h2, h3, h4, h5, h6⟩
      have hidx : (islAt st.2 i).idx = i :=
        BuildInv.idx_eq ⟨h1, h2, h3, h4, h5, h6⟩ hi
      have hvnot : ∀ j, j < n → v ∉ (islAt st.2 j).verts := by
        intro j hj hmem
        have := h3 j hj v hmem
        rw [hv] at this
        exact Option.noConfusion this
      have hset_self : islAt (claimVert uvs st.2 i v) i =
          { islAt st.2 i with
            box := boxUpdate (islAt st.2 i).box (uvs v),
            verts := (islAt st.2 i).verts ++ [v] } := by
        unfold claimVert
        exact islAt_set_self (by omega) _
      have hset_ne : ∀ j, j ≠ i → islAt (claimVert uvs st.2 i v) j =
          islAt st.2 j := by
        intro j hj
        unfold claimVert
        exact islAt_set_ne (fun h => hj h.symm) _
      refine ⟨?_, ?_, ?_, ?_, ?_, ?_⟩
      · unfold claimVert
        rw [List.map_set]
        have : ({ islAt st.2 i with
            box := boxUpdate (islAt st.2 i).box (uvs v),
            verts := (islAt st.2 i).verts ++ [v] } : PIsland).idx = i := hidx
        rw [this, h1, range_set_self]
      · intro w j hw
        dsimp only at hw
        by_cases hwv : w = v
        · subst hwv
          rw [Function.update_same] at hw
          injection hw with hw
          omega
        · rw [Function.update_noteq hwv] at hw
          exact h2 w j hw
      · intro j hj w hw
        dsimp only at hw ⊢
        by_cases hji : j = i
        · subst hji
          rw [hset_self] at hw
          rcases List.mem_append.mp hw with hw | hw
          · have hwv : w ≠ v := fun h => hvnot j hj (h ▸ hw)
            rw [Function.update_noteq hwv]
            exact h3 j hj w hw
          · rw [List.mem_singleton] at hw
            subst hw
            rw [Function.update_same]
        · rw [hset_ne j (by exact fun h => hji h)] at hw
          have hwv : w ≠ v := fun h => hvnot j hj (h ▸ hw)
          rw [Function.update_noteq hwv]
          exact h3 j hj w hw
      · intro w j hw
        dsimp only at hw ⊢
        by_cases hwv : w = v
        · subst hwv
          rw [Function.update_same] at hw
          injection hw with hw
          subst hw
          rw [hset_self]
          exact List.mem_append.mpr (Or.inr (List.mem_singleton.mpr rfl))
        · rw [Function.update_noteq hwv] at hw
          by_cases hji : j = i
          · subst hji
            rw [hset_self]
            exact List.mem_append.mpr (Or.inl (h4 w j hw))
          · rw [hset_ne j hji]
            exact h4 w j hw
      · intro j hj
        dsimp only
        by_cases hji : j = i
        · subst hji
          rw [hset_self]
          simp only [List.nodup_append, List.nodup_singleton]
          exact ⟨h5 j hj, by simpa using hvnot j hj⟩
        · rw [hset_ne j hji]
          exact h5 j hj
      · intro j hj
        dsimp only
        by_cases hji : j = i
        · subst hji
          rw [hset_self]
          simp only
          rw [List.foldl_append, ← h6 j hj]
          rfl
        · rw [hset_ne j hji]
          exact h6 j hj

/-- The initial state of STEP 1 satisfies the invariant. -/
theorem buildInv_init (uvs : ℕ → ℚ × ℚ) (n : ℕ) :
    BuildInv uvs n
      (fun _ => none, (List.range n).map (fun i => ⟨i, none, []⟩)) := by
  have hat : ∀ i, i < n →
      islAt ((List.range n).map (fun i => (⟨i, none, []⟩ : PIsland))) i =
        ⟨i, none, []⟩ := by
    intro i hi
    unfold islAt
    rw [List.getD_eq_getElem?_getD, List.getElem?_map, List.getElem?_range hi]
    rfl
  refine ⟨?_, ?_, ?_, ?_, ?_, ?_⟩
  · rw [List.map_map]
    have : (PIsland.idx ∘ fun i => (⟨i, none, []⟩ : PIsland)) = id := rfl
    rw [this, List.map_id]
  · intro v i h
    exact Option.noConfusion h
  · intro i hi v hv
    rw [hat i hi] at hv
    exact absurd hv (List.not_mem_nil v)
  · intro v i h
    exact Option.noConfusion h
  · intro i hi
    rw [hat i hi]
    exact List.nodup_nil
  · intro i hi
    rw [hat i hi]
    rfl

/-- One face step of STEP 1 preserves the invariant. -/
theorem buildFaceStep_inv (uvs : ℕ → ℚ × ℚ) (fids : ℕ → ℤ) (n : ℕ)
    (st : (ℕ → Option ℕ) × List PIsland) (hinv : BuildInv uvs n st)
    (p : ℕ × ℕ × ℕ × ℕ) :
    BuildInv uvs n
      (if 0 ≤ fids p.1 ∧ fids p.1 < (n : ℤ) then
        [p.2.1, p.2.2.1, p.2.2.2].foldl
          (fun st2 v =>
            match st2.1 v with
            | some _ => st2
            | none =>
                (Function.update st2.1 v (some (fids p.1).toNat),
                 claimVert uvs st2.2 (fids p.1).toNat v))
          st
      else st) := by
  by_cases hc : 0 ≤ fids p.1 ∧ fids p.1 < (n : ℤ)
  · rw [if_pos hc]
    have hi : (fids p.1).toNat < n := by omega
    exact foldl_preserve _ (BuildInv uvs n)
      (fun st2 v h => buildVertStep_inv uvs n (fids p.1).toNat hi st2 h v)
      [p.2.1, p.2.2.1, p.2.2.2] st hinv
  · rw [if_neg hc]
    exact hinv

/-- The full STEP 1 fold satisfies the invariant. -/
theorem buildIslands_inv (uvs : ℕ → ℚ × ℚ) (tris : List (ℕ × ℕ × ℕ))
    (fids : ℕ → ℤ) (n : ℕ) :
    BuildInv uvs n (buildIslands uvs tris fids n) := by
  unfold buildIslands
  exact foldl_preserve _ (BuildInv uvs n)
    (fun st p h => buildFaceStep_inv uvs fids n st h p)
    tris.enum _ (buildInv_init uvs n)

/-- Every member of the built island list is the record stored at its
own index, and that index is in range. -/
theorem mem_islands_eq_islAt {uvs n st} (h : BuildInv uvs n st)
    {x : PIsland} (hx : x ∈ st.2) :
    x.idx < n ∧ islAt st.2 x.idx = x := by
  obtain ⟨k, hk, hget⟩ := List.getElem_of_mem hx
  have hlen : st.2.length = n := h.length
  have hidx : x.idx = k := by
    have h1 : (st.2.map PIsland.idx)[k]? = some k := by
      rw [h.1, List.getElem?_range (by omega)]
    rw [List.getElem?_map] at h1
    have h2 : st.2[k]? = some x := by
      rw [List.getElem?_eq_some_iff]
      exact ⟨hk, hget⟩
    rw [h2] at h1
    injection h1
  constructor
  · omega
  · unfold islAt
    rw [hidx, List.getD_eq_getElem?_getD]
    have h2 : st.2[k]? = some x := by
      rw [List.getElem?_eq_some_iff]
      exact ⟨hk, hget⟩
    rw [h2]
    rfl

/-- Folding box updates over a list starting from an existing box only
widens the box. -/
theorem boxFold_mono (uvs : ℕ → ℚ × ℚ) :
    ∀ (vs : List ℕ) (a0 b0 c0 d0 a b c d : ℚ),
      vs.foldl (fun bx w => boxUpdate bx (uvs w)) (some (a0, b0, c0, d0)) =
        some (a, b, c, d) →
      a ≤ a0 ∧ b0 ≤ b ∧ c ≤ c0 ∧ d0 ≤ d := by
  intro vs
  induction vs with
  | nil =>
      intro a0 b0 c0 d0 a b c d h
      rw [List.foldl_nil] at h
      injection h with h
      refine ⟨le_of_eq ?_, le_of_eq ?_, le_of_eq ?_, le_of_eq ?_⟩ <;>
        simp_all
  | cons w vs ih =>
      intro a0 b0 c0 d0 a b c d h
      rw [List.foldl_cons] at h
      have hupd : boxUpdate (some (a0, b0, c0, d0)) (uvs w) =
          some (min a0 (uvs w).1, max b0 (uvs w).1,
            min c0 (uvs w).2, max d0 (uvs w).2) := rfl
      rw [hupd] at h
      obtain ⟨h1, h2, h3, h4⟩ := ih _ _ _ _ _ _ _ _ h
      exact ⟨le_trans h1 (min_le_left _ _), le_trans (le_max_left _ _) h2,
        le_trans h3 (min_le_left _ _), le_trans (le_max_left _ _) h4⟩

/-- Every point folded into a box lies inside the resulting box. -/
theorem boxFold_mem_bounds (uvs : ℕ → ℚ × ℚ) :
    ∀ (vs : List ℕ) (box : Option (ℚ × ℚ × ℚ × ℚ)) (v : ℕ), v ∈ vs →
      ∀ a b c d : ℚ,
        vs.foldl (fun bx w => boxUpdate bx (uvs w)) box = some (a, b, c, d) →
        a ≤ (uvs v).1 ∧ (uvs v).1 ≤ b ∧ c ≤ (uvs v).2 ∧ (uvs v).2 ≤ d := by
  intro vs
  induction vs with
  | nil => intro box v hv; exact absurd hv (List.not_mem_nil v)
  | cons w vs ih =>
      intro box v hv a b c d h
      rw [List.foldl_cons] at h
      rcases List.mem_cons.mp hv with hv | hv
      · subst hv
        have hupd : ∃ a1 b1 c1 d1, boxUpdate box (uvs v) =
            some (a1, b1, c1, d1) ∧ a1 ≤ (uvs v).1 ∧ (uvs v).1 ≤ b1 ∧
            c1 ≤ (uvs v).2 ∧ (uvs v).2 ≤ d1 := by
          cases box with
          | none =>
              exact ⟨(uvs v).1, (uvs v).1, (uvs v).2, (uvs v).2, rfl,
                le_refl _, le_refl _, le_refl _, le_refl _⟩
          | some q =>
              obtain ⟨a0, b0, c0, d0⟩ := q
              exact ⟨min a0 (uvs v).1, max b0 (uvs v).1,
                min c0 (uvs v).2, max d0 (uvs v).2, rfl,
                min_le_right _ _, le_max_right _ _,
                min_le_right _ _, le_max_right _ _⟩
        obtain ⟨a1, b1, c1, d1, he, h1, h2, h3, h4⟩ := hupd
        rw [he] at h
        obtain ⟨g1, g2, g3, g4⟩ := boxFold_mono uvs vs _ _ _ _ _ _ _ _ h
        exact ⟨le_trans g1 h1, le_trans h2 g2, le_trans g3 h3,
          le_trans h4 g4⟩
      · exact ih _ v hv a b c d h

/-- A non-sentinel folded box has ordered corners. -/
theorem boxFold_ordered (uvs : ℕ → ℚ × ℚ) :
    ∀ (vs : List ℕ) (a b c d : ℚ),
      vs.foldl (fun bx w => boxUpdate bx (uvs w)) none = some (a, b, c, d) →
      a ≤ b ∧ c ≤ d := by
  intro vs
  cases vs with
  | nil => intro a b c d h; exact Option.noConfusion h
  | cons w vs =>
      intro a b c d h
      rw [List.foldl_cons] at h
      have hupd : boxUpdate none (uvs w) =
          some ((uvs w).1, (uvs w).1, (uvs w).2, (uvs w).2) := rfl
      rw [hupd] at h
      obtain ⟨h1, h2, h3, h4⟩ := boxFold_mono uvs vs _ _ _ _ _ _ _ _ h
      exact ⟨le_trans h1 h2, le_trans h3 h4⟩

/-- Every island built by STEP 1 has nonnegative width. -/
theorem island_width_nonneg {uvs : ℕ → ℚ × ℚ} {n : ℕ}
    {st : (ℕ → Option ℕ) × List PIsland} (h : BuildInv uvs n st)
    {x : PIsland} (hx : x ∈ st.2) : 0 ≤ x.width := by
  obtain ⟨hlt, heq⟩ := mem_islands_eq_islAt h hx
  have hbox := h.2.2.2.2.2 x.idx hlt
  rw [heq] at hbox
  unfold PIsland.width
  cases hb : x.box with
  | none => exact le_refl 0
  | some q =>
      obtain ⟨a, b, c, d⟩ := q
      rw [hb] at hbox
      have := boxFold_ordered uvs x.verts a b c d hbox.symm
      simp only
      linarith [this.1]

/-- Every island built by STEP 1 has nonnegative height. -/
theorem island_height_nonneg {uvs : ℕ → ℚ × ℚ} {n : ℕ}
    {st : (ℕ → Option ℕ) × List PIsland} (h : BuildInv uvs n st)
    {x : PIsland} (hx : x ∈ st.2) : 0 ≤ x.height := by
  obtain ⟨hlt, heq⟩ := mem_islands_eq_islAt h hx
  have hbox := h.2.2.2.2.2 x.idx hlt
  rw [heq] at hbox
  unfold PIsland.height
  cases hb : x.box with
  | none => exact le_refl 0
  | some q =>
      obtain ⟨a, b, c, d⟩ := q
      rw [hb] at hbox
      have := boxFold_ordered uvs x.verts a b c d hbox.symm
      simp only
      linarith [this.2]

/-- The islands recorded in the shelf state come from the processed
list: the placed islands are a sublist of the input. -/
theorem placed_sublist (margin : ℚ) :
    ∀ (l : List PIsland) (s : ShelfState),
      ((l.foldl (placeStep margin) s).placed.map Prod.fst).Sublist
        ((s.placed.map Prod.fst) ++ l) := by
  intro l
  induction l with
  | nil =>
      intro s
      rw [List.foldl_nil, List.append_nil]
  | cons x l ih =>
      intro s
      rw [List.foldl_cons]
      have h1 := ih (placeStep margin s x)
      have h2 : ((placeStep margin s x).placed.map Prod.fst ++ l).Sublist
          ((s.placed.map Prod.fst) ++ x :: l) := by
        unfold placeStep
        by_cases hw : x.width = 0
        · rw [if_pos hw]
          exact List.Sublist.append (List.Sublist.refl _)
            (List.sublist_cons_self x l)
        · rw [if_neg hw]
          dsimp only
          simp only [List.map_append, List.map_cons, List.map_nil]
          rw [List.append_assoc]
          exact List.Sublist.append (List.Sublist.refl _)
            (by simp)
      exact h1.trans h2

/-- STEP 3 bounds invariant: cursors and extents are nonnegative and
every placed island fits inside the tracked extents with a nonzero
width. -/
def PlaceInv (s : ShelfState) : Prop :=
  0 ≤ s.curX ∧ 0 ≤ s.curY ∧ 0 ≤ s.shelfH ∧ 0 ≤ s.maxW ∧ 0 ≤ s.maxH ∧
  ∀ p ∈ s.placed, 0 ≤ p.2.1 ∧ 0 ≤ p.2.2 ∧
    p.2.1 + p.1.width ≤ s.maxW ∧ p.2.2 + p.1.height ≤ s.maxH ∧
    p.1.width ≠ 0

/-- One placement step preserves the bounds invariant when the margin
and the island's dimensions are nonnegative. -/
theorem placeStep_inv {margin : ℚ} (hm : 0 ≤ margin) {s : ShelfState}
    (hs : PlaceInv s) {isl : PIsland} (hw : 0 ≤ isl.width)
    (hh : 0 ≤ isl.height) : PlaceInv (placeStep margin s isl) := by
  obtain ⟨h1, h2, h3, h4, h5, h6⟩ := hs
  unfold placeStep
  by_cases hz : isl.width = 0
  · rw [if_pos hz]
    exact ⟨h1, h2, h3, h4, h5, h6⟩
  · rw [if_neg hz]
    simp only
    by_cases hwrap : 1 < s.curX + isl.width ∧ 0 < s.curX
    · rw [if_pos hwrap, if_pos hwrap, if_pos hwrap]
      unfold PlaceInv
      dsimp only
      refine ⟨by linarith, by linarith, le_max_iff.mpr (Or.inl (le_refl 0)),
        le_trans h4 (le_max_left _ _), le_trans h5 (le_max_left _ _), ?_⟩
      intro p hp
      rcases List.mem_append.mp hp with hp | hp
      · obtain ⟨g1, g2, g3, g4, g5⟩ := h6 p hp
        exact ⟨g1, g2, le_trans g3 (le_max_left _ _),
          le_trans g4 (le_max_left _ _), g5⟩
      · rw [List.mem_singleton] at hp
        subst hp
        dsimp only
        exact ⟨le_refl 0, by linarith, le_max_right _ _,
          le_max_right _ _, hz⟩
    · rw [if_neg hwrap, if_neg hwrap, if_neg hwrap]
      unfold PlaceInv
      dsimp only
      refine ⟨by linarith, h2, le_max_iff.mpr (Or.inl h3),
        le_trans h4 (le_max_left _ _), le_trans h5 (le_max_left _ _), ?_⟩
      intro p hp
      rcases List.mem_append.mp hp with hp | hp
      · obtain ⟨g1, g2, g3, g4, g5⟩ := h6 p hp
        exact ⟨g1, g2, le_trans g3 (le_max_left _ _),
          le_trans g4 (le_max_left _ _), g5⟩
      · rw [List.mem_singleton] at hp
        subst hp
        dsimp only
        exact ⟨h1, h2, le_max_right _ _, le_max_right _ _, hz⟩

/-- The whole STEP 3 fold satisfies the bounds invariant when the
margin is nonnegative and all islands have nonnegative dimensions. -/
theorem placeIslands_inv {margin : ℚ} (hm : 0 ≤ margin)
    (l : List PIsland) (hl : ∀ x ∈ l, 0 ≤ x.width ∧ 0 ≤ x.height) :
    PlaceInv (placeIslands margin l) := by
  unfold placeIslands
  have : ∀ (l' : List PIsland), (∀ x ∈ l', 0 ≤ x.width ∧ 0 ≤ x.height) →
      ∀ (s : ShelfState), PlaceInv s →
      PlaceInv (l'.foldl (placeStep margin) s) := by
    intro l'
    induction l' with
    | nil => intro _ s hs; exact hs
    | cons x l' ih =>
        intro hx s hs
        rw [List.foldl_cons]
        have hxm := hx x (List.mem_cons_self x l')
        exact ih (fun y hy => hx y (List.mem_cons_of_mem x hy)) _
          (placeStep_inv hm hs hxm.1 hxm.2)
  refine this l hl _ ⟨le_refl 0, le_refl 0, le_refl 0, le_refl 0, le_refl 0,
    fun p hp => absurd hp (List.not_mem_nil p)⟩

/-- The STEP 4 inner loop does not touch vertices outside the island's
vertex list. -/
theorem offFold_not_mem (dx dy : ℚ) :
    ∀ (vs : List ℕ) (uv : ℕ → ℚ × ℚ) (v : ℕ), v ∉ vs →
      (vs.foldl
        (fun uv2 w => Function.update uv2 w ((uv2 w).1 + dx, (uv2 w).2 + dy))
        uv) v = uv v := by
  intro vs
  induction vs with
  | nil => intro uv v _; rfl
  | cons w vs ih =>
      intro uv v hv
      rw [List.foldl_cons]
      have hvw : v ≠ w := fun h => hv (h ▸ List.mem_cons_self w vs)
      have hvs : v ∉ vs := fun h => hv (List.mem_cons_of_mem w h)
      rw [ih _ v hvs, Function.update_noteq hvw]

/-- The STEP 4 inner loop adds the offset exactly once to a listed
vertex when the island's vertex list has no duplicates. -/
theorem offFold_mem (dx dy : ℚ) :
    ∀ (vs : List ℕ) (uv : ℕ → ℚ × ℚ) (v : ℕ), v ∈ vs → vs.Nodup →
      (vs.foldl
        (fun uv2 w => Function.update uv2 w ((uv2 w).1 + dx, (uv2 w).2 + dy))
        uv) v = ((uv v).1 + dx, (uv v).2 + dy) := by
  intro vs
  induction vs with
  | nil => intro uv v hv; exact absurd hv (List.not_mem_nil v)
  | cons w vs ih =>
      intro uv v hv hnd
      rw [List.foldl_cons]
      rcases List.mem_cons.mp hv with hv | hv
      · subst hv
        have hvs : v ∉ vs := (List.nodup_cons.mp hnd).1
        rw [offFold_not_mem dx dy vs _ v hvs, Function.update_same]
      · have hvw : v ≠ w := by
          intro h
          exact (List.nodup_cons.mp hnd).1 (h ▸ hv)
        rw [ih _ v hv (List.nodup_cons.mp hnd).2, Function.update_noteq hvw]

/-- Unfolding one placed island in STEP 4. -/
theorem applyOffsets_cons (uv : ℕ → ℚ × ℚ) (p : PIsland × ℚ × ℚ)
    (rest : List (PIsland × ℚ × ℚ)) :
    applyOffsets uv (p :: rest) =
      applyOffsets
        (p.1.verts.foldl
          (fun uv2 v => Function.update uv2 v
            ((uv2 v).1 + (p.2.1 - p.1.minU), (uv2 v).2 + (p.2.2 - p.1.minV)))
          uv)
        rest := rfl

/-- STEP 4 leaves a vertex untouched when no placed island lists it. -/
theorem applyOffsets_not_mem :
    ∀ (placed : List (PIsland × ℚ × ℚ)) (uv : ℕ → ℚ × ℚ) (v : ℕ),
      (∀ q ∈ placed, v ∉ q.1.verts) → applyOffsets uv placed v = uv v := by
  intro placed
  induction placed with
  | nil => intro uv v _; rfl
  | cons q rest ih =>
      intro uv v hq
      rw [applyOffsets_cons]
      rw [ih _ v (fun r hr => hq r (List.mem_cons_of_mem q hr))]
      exact offFold_not_mem _ _ _ uv v (hq q (List.mem_cons_self q rest))

/-- STEP 4 translates a vertex by its own island's offset exactly once
when that island is the only placed entry listing it. -/
theorem applyOffsets_once :
    ∀ (placed : List (PIsland × ℚ × ℚ)) (uv : ℕ → ℚ × ℚ) (v : ℕ)
      (p : PIsland × ℚ × ℚ), p ∈ placed → v ∈ p.1.verts →
      p.1.verts.Nodup → (∀ q ∈ placed, q ≠ p → v ∉ q.1.verts) →
      placed.Nodup →
      applyOffsets uv placed v =
        ((uv v).1 + (p.2.1 - p.1.minU), (uv v).2 + (p.2.2 - p.1.minV)) := by
  intro placed
  induction placed with
  | nil => intro uv v p hp; exact absurd hp (List.not_mem_nil p)
  | cons q rest ih =>
      intro uv v p hp hv hnd honce hpl
      rw [applyOffsets_cons]
      rcases List.mem_cons.mp hp with hqp | hp'
      · subst hqp
        have hrest : ∀ r ∈ rest, v ∉ r.1.verts := by
          intro r hr
          have hrp : r ≠ p := by
            intro h
            exact (List.nodup_cons.mp hpl).1 (h ▸ hr)
          exact honce r (List.mem_cons_of_mem p hr) hrp
        rw [applyOffsets_not_mem rest _ v hrest]
        exact offFold_mem _ _ _ uv v hv hnd
      · have hqp : q ≠ p := by
          intro h
          exact (List.nodup_cons.mp hpl).1 (h ▸ hp')
        have hvq : v ∉ q.1.verts := honce q (List.mem_cons_self q rest) hqp
        rw [ih _ v p hp' hv hnd
          (fun r hr hrp => honce r (List.mem_cons_of_mem q hr) hrp)
          (List.nodup_cons.mp hpl).2]
        rw [offFold_not_mem _ _ _ uv v hvq]

/-- The built island list has no duplicate records. -/
theorem buildIslands_nodup (uvs : ℕ → ℚ × ℚ) (tris : List (ℕ × ℕ × ℕ))
    (fids : ℕ → ℤ) (n : ℕ) : (buildIslands uvs tris fids n).2.Nodup := by
  have h := (buildIslands_inv uvs tris fids n).1
  have : ((buildIslands uvs tris fids n).2.map PIsland.idx).Nodup := by
    rw [h]
    exact List.nodup_range n
  exact this.of_map

/-- Islands placed by the packing pipeline come from the built list. -/
theorem placed_fst_mem (uvs : ℕ → ℚ × ℚ) (tris : List (ℕ × ℕ × ℕ))
    (fids : ℕ → ℤ) (n : ℕ) (margin : ℚ) {p : PIsland × ℚ × ℚ}
    (hp : p ∈ (placeIslands margin
      ((buildIslands uvs tris fids n).2.insertionSort packLE)).placed) :
    p.1 ∈ (buildIslands uvs tris fids n).2 := by
  have hsub := placed_sublist margin
    ((buildIslands uvs tris fids n).2.insertionSort packLE)
    ⟨0, 0, 0, 0, 0, []⟩
  rw [show (⟨0, 0, 0, 0, 0, []⟩ : ShelfState).placed = [] from rfl] at hsub
  rw [List.map_nil, List.nil_append] at hsub
  have h1 : p.1 ∈ (buildIslands uvs tris fids n).2.insertionSort packLE :=
    hsub.subset (List.mem_map_of_mem Prod.fst hp)
  exact (List.perm_insertionSort packLE _).subset h1

/-- The packed placement list holds each island at most once. -/
theorem placed_nodup (uvs : ℕ → ℚ × ℚ) (tris : List (ℕ × ℕ × ℕ))
    (fids : ℕ → ℤ) (n : ℕ) (margin : ℚ) :
    ((placeIslands margin
      ((buildIslands uvs tris fids n).2.insertionSort packLE)).placed.map
        Prod.fst).Nodup := by
  have hsub := placed_sublist margin
    ((buildIslands uvs tris fids n).2.insertionSort packLE)
    ⟨0, 0, 0, 0, 0, []⟩
  rw [show (⟨0, 0, 0, 0, 0, []⟩ : ShelfState).placed = [] from rfl] at hsub
  rw [List.map_nil, List.nil_append] at hsub
  exact hsub.nodup
    ((List.perm_insertionSort packLE _).nodup_iff.mpr
      (buildIslands_nodup uvs tris fids n))

/-- A vertex belongs to the vertex list of at most one placed island. -/
theorem placed_owner_unique (uvs : ℕ → ℚ × ℚ) (tris : List (ℕ × ℕ × ℕ))
    (fids : ℕ → ℤ) (n : ℕ) (margin : ℚ) {p q : PIsland × ℚ × ℚ} {v : ℕ}
    (hp : p ∈ (placeIslands margin
      ((buildIslands uvs tris fids n).2.insertionSort packLE)).placed)
    (hq : q ∈ (placeIslands margin
      ((buildIslands uvs tris fids n).2.insertionSort packLE)).placed)
    (hvp : v ∈ p.1.verts) (hvq : v ∈ q.1.verts) : q = p := by
  have hinv := buildIslands_inv uvs tris fids n
  obtain ⟨hplt, hpeq⟩ :=
    mem_islands_eq_islAt hinv (placed_fst_mem uvs tris fids n margin hp)
  obtain ⟨hqlt, hqeq⟩ :=
    mem_islands_eq_islAt hinv (placed_fst_mem uvs tris fids n margin hq)
  have hap : (buildIslands uvs tris fids n).1 v = some p.1.idx := by
    refine hinv.2.2.1 p.1.idx hplt v ?_
    rw [hpeq]
    exact hvp
  have haq : (buildIslands uvs tris fids n).1 v = some q.1.idx := by
    refine hinv.2.2.1 q.1.idx hqlt v ?_
    rw [hqeq]
    exact hvq
  have hidx : q.1.idx = p.1.idx := by
    rw [hap] at haq
    injection haq with h
    omega
  have hfst : q.1 = p.1 := by
    rw [← hqeq, ← hpeq, hidx]
  exact List.inj_on_of_nodup_map (placed_nodup uvs tris fids n margin)
    hq hp hfst

/-- Folding box updates from an existing box never returns to the
sentinel. -/
theorem boxFold_isSome (uvs : ℕ → ℚ × ℚ) :
    ∀ (vs : List ℕ) (q : ℚ × ℚ × ℚ × ℚ), ∃ r : ℚ × ℚ × ℚ × ℚ,
      vs.foldl (fun bx w => boxUpdate bx (uvs w)) (some q) = some r := by
  intro vs
  induction vs with
  | nil => intro q; exact ⟨q, rfl⟩
  | cons w vs ih =>
      intro q
      obtain ⟨a, b, c, d⟩ := q
      rw [List.foldl_cons]
      exact ih _

/-- A vertex list containing a vertex folds to a real box. -/
theorem boxFold_some_of_mem (uvs : ℕ → ℚ × ℚ) (vs : List ℕ) (v : ℕ)
    (hv : v ∈ vs) : ∃ a b c d : ℚ,
      vs.foldl (fun bx w => boxUpdate bx (uvs w)) none = some (a, b, c, d) := by
  cases vs with
  | nil => exact absurd hv (List.not_mem_nil v)
  | cons w vs =>
      rw [List.foldl_cons]
      obtain ⟨⟨a, b, c, d⟩, hr⟩ :=
        boxFold_isSome uvs vs ((uvs w).1, (uvs w).1, (uvs w).2, (uvs w).2)
      exact ⟨a, b, c, d, hr⟩

/-- The data of one placed entry of the packing pipeline, bundled:
offset translation applied once, and the translated UV of each listed
vertex confined to the placed bounding box. -/
theorem placed_entry_bounds (uvs : ℕ → ℚ × ℚ) (tris : List (ℕ × ℕ × ℕ))
    (fids : ℕ → ℤ) (n : ℕ) (margin : ℚ) (hm : 0 ≤ margin)
    {p : PIsland × ℚ × ℚ} {v : ℕ}
    (hp : p ∈ (placeIslands margin
      ((buildIslands uvs tris fids n).2.insertionSort packLE)).placed)
    (hv : v ∈ p.1.verts) :
    (applyOffsets uvs (placeIslands margin
        ((buildIslands uvs tris fids n).2.insertionSort packLE)).placed v =
      ((uvs v).1 + (p.2.1 - p.1.minU), (uvs v).2 + (p.2.2 - p.1.minV))) ∧
    (p.2.1 ≤ (uvs v).1 + (p.2.1 - p.1.minU) ∧
      (uvs v).1 + (p.2.1 - p.1.minU) ≤ p.2.1 + p.1.width) ∧
    (p.2.2 ≤ (uvs v).2 + (p.2.2 - p.1.minV) ∧
      (uvs v).2 + (p.2.2 - p.1.minV) ≤ p.2.2 + p.1.height) := by
  have hinv := buildIslands_inv uvs tris fids n
  have hp1 := placed_fst_mem uvs tris fids n margin hp
  obtain ⟨hplt, hpeq⟩ := mem_islands_eq_islAt hinv hp1
  have hnd : p.1.verts.Nodup := by
    have := hinv.2.2.2.2.1 p.1.idx hplt
    rw [hpeq] at this
    exact this
  have hbox : p.1.box =
      p.1.verts.foldl (fun bx w => boxUpdate bx (uvs w)) none := by
    have := hinv.2.2.2.2.2 p.1.idx hplt
    rw [hpeq] at this
    exact this
  obtain ⟨a, b, c, d, hfold⟩ := boxFold_some_of_mem uvs p.1.verts v hv
  have hboxeq : p.1.box = some (a, b, c, d) := by rw [hbox, hfold]
  obtain ⟨hba, hub, hcv, hvd⟩ :=
    boxFold_mem_bounds uvs p.1.verts none v hv a b c d hfold
  have hwidth : p.1.width = b - a := by
    unfold PIsland.width
    rw [hboxeq]
  have hheight : p.1.height = d - c := by
    unfold PIsland.height
    rw [hboxeq]
  have hminU : p.1.minU = a := by
    unfold PIsland.minU
    rw [hboxeq]
  have hminV : p.1.minV = c := by
    unfold PIsland.minV
    rw [hboxeq]
  refine ⟨?_, ?_, ?_⟩
  · refine applyOffsets_once _ uvs v p hp hv hnd ?_ ?_
    · intro q hq hqp hvq
      exact hqp (placed_owner_unique uvs tris fids n margin hp hq hv hvq)
    · exact (placed_nodup uvs tris fids n margin).of_map
  · rw [hminU, hwidth]
    constructor <;> linarith
  · rw [hminV, hheight]
    constructor <;> linarith

/-- Evaluation of `pack_uv_islands` at an in-range vertex in the
multi-island case. -/
theorem pack_uv_islands_eval (numVerts : ℕ) (tris : List (ℕ × ℕ × ℕ))
    (uvs : ℕ → ℚ × ℚ) (fids : ℕ → ℤ) (numIslands : ℕ) (margin : ℚ)
    (h : ¬ numIslands ≤ 1) (v : ℕ) (hv : v < numVerts) :
    pack_uv_islands numVerts tris uvs fids numIslands margin v =
      ((applyOffsets uvs (placeIslands margin
          ((buildIslands uvs tris fids numIslands).2.insertionSort
            packLE)).placed v).1 *
        packScale (placeIslands margin
          ((buildIslands uvs tris fids numIslands).2.insertionSort packLE)),
       (applyOffsets uvs (placeIslands margin
          ((buildIslands uvs tris fids numIslands).2.insertionSort
            packLE)).placed v).2 *
        packScale (placeIslands margin
          ((buildIslands uvs tris fids numIslands).2.insertionSort
            packLE))) := by
  unfold pack_uv_islands
  rw [if_neg h]
  rw [if_pos hv]

/-- claim C3: with more than one island, a nonnegative margin, and the
vertices of unplaced (skipped, failed or empty) islands left at zero,
every vertex UV produced by `pack_uv_islands` lies inside the unit
square. -/
theorem claim_C3_packed_unit_square (numVerts : ℕ)
    (tris : List (ℕ × ℕ × ℕ)) (uvs : ℕ → ℚ × ℚ) (fids : ℕ → ℤ)
    (numIslands : ℕ) (margin : ℚ) (hn : 1 < numIslands) (hm : 0 ≤ margin)
    (hz : ∀ v, v < numVerts →
      (∀ p ∈ (placeIslands margin
        ((buildIslands uvs tris fids numIslands).2.insertionSort
          packLE)).placed, v ∉ p.1.verts) → uvs v = (0, 0)) :
    ∀ v, v < numVerts →
      0 ≤ (pack_uv_islands numVerts tris uvs fids numIslands margin v).1 ∧
      (pack_uv_islands numVerts tris uvs fids numIslands margin v).1 ≤ 1 ∧
      0 ≤ (pack_uv_islands numVerts tris uvs fids numIslands margin v).2 ∧
      (pack_uv_islands numVerts tris uvs fids numIslands margin v).2 ≤ 1 := by
  intro v hv
  rw [pack_uv_islands_eval numVerts tris uvs fids numIslands margin
    (by omega) v hv]
  set s := placeIslands margin
    ((buildIslands uvs tris fids numIslands).2.insertionSort packLE)
    with hs
  by_cases hmem : ∃ p ∈ s.placed, v ∈ p.1.verts
  · obtain ⟨p, hp, hvp⟩ := hmem
    obtain ⟨hoff, ⟨hx1, hx2⟩, hy1, hy2⟩ :=
      placed_entry_bounds uvs tris fids numIslands margin hm hp hvp
    have hpi : PlaceInv s := by
      rw [hs]
      refine placeIslands_inv hm _ ?_
      intro x hx
      have hxm : x ∈ (buildIslands uvs tris fids numIslands).2 :=
        (List.perm_insertionSort packLE _).subset hx
      exact ⟨island_width_nonneg (buildIslands_inv uvs tris fids numIslands)
        hxm, island_height_nonneg (buildIslands_inv uvs tris fids numIslands)
        hxm⟩
    obtain ⟨-, -, -, hW0, hH0, hent⟩ := hpi
    obtain ⟨htx, hty, hxw, hyh, hwne⟩ := hent p hp
    have hwpos : 0 < p.1.width :=
      lt_of_le_of_ne
        (island_width_nonneg (buildIslands_inv uvs tris fids numIslands)
          (placed_fst_mem uvs tris fids numIslands margin hp))
        (Ne.symm hwne)
    have hWpos : 0 < s.maxW := lt_of_lt_of_le (by linarith) hxw
    have hMpos : 0 < max s.maxW s.maxH :=
      lt_of_lt_of_le hWpos (le_max_left _ _)
    have hscale : packScale s = 1 / max s.maxW s.maxH := by
      unfold packScale
      rw [if_neg (ne_of_gt hWpos)]
    rw [hoff, hscale]
    dsimp only
    have hU0 : 0 ≤ (uvs v).1 + (p.2.1 - p.1.minU) := le_trans htx hx1
    have hUM : (uvs v).1 + (p.2.1 - p.1.minU) ≤ max s.maxW s.maxH :=
      le_trans (le_trans hx2 hxw) (le_max_left _ _)
    have hV0 : 0 ≤ (uvs v).2 + (p.2.2 - p.1.minV) := le_trans hty hy1
    have hVM : (uvs v).2 + (p.2.2 - p.1.minV) ≤ max s.maxW s.maxH :=
      le_trans (le_trans hy2 hyh) (le_max_right _ _)
    refine ⟨mul_nonneg hU0 (by positivity), ?_,
      mul_nonneg hV0 (by positivity), ?_⟩
    · rw [mul_one_div, div_le_one hMpos]
      exact hUM
    · rw [mul_one_div, div_le_one hMpos]
      exact hVM
  · push_neg at hmem
    rw [applyOffsets_not_mem s.placed uvs v hmem, hz v hv hmem]
    norm_num

/-- STEP 3 same-shelf separation invariant: every placed island sits on
a finished lower shelf or on the current shelf to the left of the
cursor with a margin of clearance, and islands sharing a shelf are
separated by at least the margin. -/
def SepInv (margin : ℚ) (s : ShelfState) : Prop :=
  (∀ p ∈ s.placed, p.2.2 < s.curY ∨
    (p.2.2 = s.curY ∧ p.2.1 + p.1.width + margin ≤ s.curX)) ∧
  List.Pairwise
    (fun p q : PIsland × ℚ × ℚ =>
      p.2.2 = q.2.2 → p.2.1 + p.1.width + margin ≤ q.2.1) s.placed ∧
  0 ≤ s.shelfH

/-- One placement step preserves the separation invariant when the
margin is positive and the island's dimensions are nonnegative. -/
theorem placeStep_sepInv {margin : ℚ} (hm : 0 < margin) {s : ShelfState}
    (hs : SepInv margin s) {isl : PIsland} (hw : 0 ≤ isl.width)
    (hh : 0 ≤ isl.height) : SepInv margin (placeStep margin s isl) := by
  obtain ⟨h1, h2, h3⟩ := hs
  unfold placeStep
  by_cases hz : isl.width = 0
  · rw [if_pos hz]
    exact ⟨h1, h2, h3⟩
  · rw [if_neg hz]
    simp only
    by_cases hwrap : 1 < s.curX + isl.width ∧ 0 < s.curX
    · rw [if_pos hwrap, if_pos hwrap, if_pos hwrap]
      unfold SepInv
      dsimp only
      refine ⟨?_, ?_, le_max_iff.mpr (Or.inr hh)⟩
      · intro p hp
        rcases List.mem_append.mp hp with hp | hp
        · rcases h1 p hp with hlt | ⟨heq, -⟩
          · exact Or.inl (by linarith)
          · exact Or.inl (by linarith)
        · rw [List.mem_singleton] at hp
          subst hp
          exact Or.inr ⟨rfl, by dsimp only; linarith⟩
      · rw [List.pairwise_append]
        refine ⟨h2, List.pairwise_singleton _ _, ?_⟩
        intro p hp q hq heq
        rw [List.mem_singleton] at hq
        subst hq
        dsimp only at heq
        rcases h1 p hp with hlt | ⟨heq2, -⟩
        · exact absurd heq (by linarith)
        · exact absurd heq (by linarith)
    · rw [if_neg hwrap, if_neg hwrap, if_neg hwrap]
      unfold SepInv
      dsimp only
      refine ⟨?_, ?_, le_max_iff.mpr (Or.inl h3)⟩
      · intro p hp
        rcases List.mem_append.mp hp with hp | hp
        · rcases h1 p hp with hlt | ⟨heq, hle⟩
          · exact Or.inl hlt
          · exact Or.inr ⟨heq, by linarith⟩
        · rw [List.mem_singleton] at hp
          subst hp
          exact Or.inr ⟨rfl, by dsimp only; linarith⟩
      · rw [List.pairwise_append]
        refine ⟨h2, List.pairwise_singleton _ _, ?_⟩
        intro p hp q hq heq
        rw [List.mem_singleton] at hq
        subst hq
        dsimp only at heq ⊢
        rcases h1 p hp with hlt | ⟨-, hle⟩
        · exact absurd heq (by linarith)
        · exact hle

/-- The whole STEP 3 fold keeps same-shelf islands separated by the
margin when the margin is positive. -/
theorem placeIslands_sepInv {margin : ℚ} (hm : 0 < margin)
    (l : List PIsland) (hl : ∀ x ∈ l, 0 ≤ x.width ∧ 0 ≤ x.height) :
    SepInv margin (placeIslands margin l) := by
  unfold placeIslands
  have : ∀ (l' : List PIsland), (∀ x ∈ l', 0 ≤ x.width ∧ 0 ≤ x.height) →
      ∀ (s : ShelfState), SepInv margin s →
      SepInv margin (l'.foldl (placeStep margin) s) := by
    intro l'
    induction l' with
    | nil => intro _ s hs; exact hs
    | cons x l' ih =>
        intro hx s hs
        rw [List.foldl_cons]
        have hxm := hx x (List.mem_cons_self x l')
        exact ih (fun y hy => hx y (List.mem_cons_of_mem x hy)) _
          (placeStep_sepInv hm hs hxm.1 hxm.2)
  exact this l hl _ ⟨fun p hp => absurd hp (List.not_mem_nil p),
    List.Pairwise.nil, le_refl 0⟩

/-- The global scale factor of STEP 5 is positive whenever the tracked
extents are nonnegative. -/
theorem packScale_pos {s : ShelfState} (hW : 0 ≤ s.maxW) (hH : 0 ≤ s.maxH) :
    0 < packScale s := by
  unfold packScale
  by_cases h : s.maxW = 0
  · rw [if_pos h]
    norm_num
  · rw [if_neg h]
    have : 0 < max s.maxW s.maxH :=
      lt_of_lt_of_le (lt_of_le_of_ne hW (Ne.symm h)) (le_max_left _ _)
    positivity

/-- claim C6 (amended): with a positive margin, any two islands the
pipeline places on the same shelf keep at least the margin of
horizontal clearance before the final rescale; after the rescale their
boxes are separated by margin times the (positive) global scale, so
they never overlap. -/
theorem claim_C6_amended (numVerts : ℕ) (tris : List (ℕ × ℕ × ℕ))
    (uvs : ℕ → ℚ × ℚ) (fids : ℕ → ℤ) (numIslands : ℕ) (margin : ℚ)
    (hm : 0 < margin) :
    List.Pairwise
      (fun p q : PIsland × ℚ × ℚ => p.2.2 = q.2.2 →
        p.2.1 + p.1.width + margin ≤ q.2.1 ∧
        (p.2.1 + p.1.width) * packScale (placeIslands margin
            ((buildIslands uvs tris fids numIslands).2.insertionSort
              packLE)) +
          margin * packScale (placeIslands margin
            ((buildIslands uvs tris fids numIslands).2.insertionSort
              packLE)) ≤
          q.2.1 * packScale (placeIslands margin
            ((buildIslands uvs tris fids numIslands).2.insertionSort
              packLE)) ∧
        0 < margin * packScale (placeIslands margin
          ((buildIslands uvs tris fids numIslands).2.insertionSort
            packLE)))
      (placeIslands margin
        ((buildIslands uvs tris fids numIslands).2.insertionSort
          packLE)).placed := by
  have hdims : ∀ x ∈ (buildIslands uvs tris fids numIslands).2.insertionSort
      packLE, 0 ≤ x.width ∧ 0 ≤ x.height := by
    intro x hx
    have hxm : x ∈ (buildIslands uvs tris fids numIslands).2 :=
      (List.perm_insertionSort packLE _).subset hx
    exact ⟨island_width_nonneg (buildIslands_inv uvs tris fids numIslands)
      hxm, island_height_nonneg (buildIslands_inv uvs tris fids numIslands)
      hxm⟩
  have hsep := (placeIslands_sepInv hm _ hdims).2.1
  have hpi := placeIslands_inv (le_of_lt hm) _ hdims
  have hscale : 0 < packScale (placeIslands margin
      ((buildIslands uvs tris fids numIslands).2.insertionSort packLE)) :=
    packScale_pos hpi.2.2.2.1 hpi.2.2.2.2.1
  refine hsep.imp ?_
  intro p q h heq
  have h1 := h heq
  refine ⟨by linarith, ?_, by positivity⟩
  have := mul_le_mul_of_nonneg_right h1 (le_of_lt hscale)
  linarith [this]

/-- The three-island mesh of the packing counterexample: three
disconnected triangles, one island each. -/
def c6tris : List (ℕ × ℕ × ℕ) := [(0, 1, 2), (3, 4, 5), (6, 7, 8)]

/-- UVs giving islands of sizes 2/5 × 1, 2/5 × 1 and 1/2 × 1/2. -/
def c6uvs : ℕ → ℚ × ℚ := fun v =>
  if v = 0 then (0, 0) else if v = 1 then (2/5, 1) else if v = 2 then (0, 1)
  else if v = 3 then (0, 0) else if v = 4 then (2/5, 1)
  else if v = 5 then (0, 1) else if v = 6 then (0, 0)
  else if v = 7 then (1/2, 1/2) else if v = 8 then (0, 1/2)
  else (0, 0)

/-- Island ids of the three faces. -/
def c6fids : ℕ → ℤ := fun f =>
  if f = 0 then 0 else if f = 1 then 1 else if f = 2 then 2 else -1

/-- The shelf state the pipeline reaches on the counterexample mesh
with margin 1/10. -/
def c6shelf : ShelfState :=
  placeIslands (1/10)
    ((buildIslands c6uvs c6tris c6fids 3).2.insertionSort packLE)

/-- STEP 1 output on the counterexample mesh. -/
theorem c6islands : (buildIslands c6uvs c6tris c6fids 3).2 =
    [⟨0, some (0, 2/5, 0, 1), [0, 1, 2]⟩,
     ⟨1, some (0, 2/5, 0, 1), [3, 4, 5]⟩,
     ⟨2, some (0, 1/2, 0, 1/2), [6, 7, 8]⟩] := by
  have h2 : (2 : ℤ).toNat = 2 := by decide
  norm_num [h2, buildIslands, c6tris, c6uvs, c6fids, claimVert, islAt,
    boxUpdate, List.enum, List.enumFrom, List.range, List.range.loop,
    Function.update, min_def, max_def]

/-- STEP 2 output on the counterexample mesh (heights 1, 1, 1/2 are
already sorted descending). -/
theorem c6sorted : ((buildIslands c6uvs c6tris c6fids 3).2.insertionSort
    packLE) =
    [⟨0, some (0, 2/5, 0, 1), [0, 1, 2]⟩,
     ⟨1, some (0, 2/5, 0, 1), [3, 4, 5]⟩,
     ⟨2, some (0, 1/2, 0, 1/2), [6, 7, 8]⟩] := by
  rw [c6islands]
  norm_num [List.insertionSort, List.orderedInsert, packLE, PIsland.height]

/-- STEP 3 output on the counterexample mesh: the first two islands
share the first shelf and the third opens a second shelf. -/
theorem c6shelf_eq : c6shelf =
    ⟨3/5, 11/10, 1/2, 9/10, 8/5,
     [(⟨0, some (0, 2/5, 0, 1), [0, 1, 2]⟩, 0, 0),
      (⟨1, some (0, 2/5, 0, 1), [3, 4, 5]⟩, 1/2, 0),
      (⟨2, some (0, 1/2, 0, 1/2), [6, 7, 8]⟩, 0, 11/10)]⟩ := by
  unfold c6shelf
  rw [c6sorted]
  norm_num [placeIslands, placeStep, PIsland.width, PIsland.height,
    min_def, max_def]

/-- Evaluation of the packed UVs on the counterexample mesh. -/
theorem c6final_eq : ∀ v, v < 9 →
    pack_uv_islands 9 c6tris c6uvs c6fids 3 (1/10) v =
      ((applyOffsets c6uvs c6shelf.placed v).1 * (5/8),
       (applyOffsets c6uvs c6shelf.placed v).2 * (5/8)) := by
  intro v hv
  rw [pack_uv_islands_eval 9 c6tris c6uvs c6fids 3 (1/10) (by norm_num) v hv]
  have hscale : packScale (placeIslands (1/10)
      ((buildIslands c6uvs c6tris c6fids 3).2.insertionSort packLE)) =
      5/8 := by
    rw [show placeIslands (1/10)
        ((buildIslands c6uvs c6tris c6fids 3).2.insertionSort packLE) =
        c6shelf from rfl, c6shelf_eq]
    norm_num [packScale, max_def]
  rw [hscale]
  rfl

/-- claim C6 counterexample: on a three-island mesh with margin 1/10,
two islands share the first shelf and their final bounding boxes are
exactly 1/16 apart, closer than the configured margin: the right edge
of the first box is exactly 1/4 (its maximal final u, attained at
vertex 1), the left edge of the second is exactly 5/16 (its minimal
final u, attained at vertex 3), and 5/16 - 1/4 = 1/16 < 1/10 — the
global rescale of STEP 5 shrinks the clearance below the margin. -/
theorem claim_C6_counterexample :
    ∃ p ∈ c6shelf.placed, ∃ q ∈ c6shelf.placed,
      p.1 ≠ q.1 ∧ p.2.2 = q.2.2 ∧
      (∀ v ∈ p.1.verts,
        (pack_uv_islands 9 c6tris c6uvs c6fids 3 (1/10) v).1 ≤ 1/4) ∧
      1 ∈ p.1.verts ∧
      (pack_uv_islands 9 c6tris c6uvs c6fids 3 (1/10) 1).1 = 1/4 ∧
      (∀ v ∈ q.1.verts,
        5/16 ≤ (pack_uv_islands 9 c6tris c6uvs c6fids 3 (1/10) v).1) ∧
      3 ∈ q.1.verts ∧
      (pack_uv_islands 9 c6tris c6uvs c6fids 3 (1/10) 3).1 = 5/16 ∧
      (5/16 : ℚ) - 1/4 < 1/10 := by
  refine ⟨(⟨0, some (0, 2/5, 0, 1), [0, 1, 2]⟩, 0, 0), ?_,
    (⟨1, some (0, 2/5, 0, 1), [3, 4, 5]⟩, 1/2, 0), ?_, ?_, rfl, ?_,
    by decide, ?_, ?_, by decide, ?_, by norm_num⟩
  · rw [c6shelf_eq]
    simp
  · rw [c6shelf_eq]
    simp
  · intro h
    have := congrArg PIsland.idx h
    simp at this
  · intro v hv
    fin_cases hv <;>
      rw [c6final_eq _ (by norm_num)] <;>
      · rw [c6shelf_eq]
        norm_num [applyOffsets, PIsland.minU, PIsland.minV,
          Function.update, c6uvs]
  · rw [c6final_eq 1 (by norm_num), c6shelf_eq]
    norm_num [applyOffsets, PIsland.minU, PIsland.minV,
      Function.update, c6uvs]
  · intro v hv
    fin_cases hv <;>
      rw [c6final_eq _ (by norm_num)] <;>
      · rw [c6shelf_eq]
        norm_num [applyOffsets, PIsland.minU, PIsland.minV,
          Function.update, c6uvs]
  · rw [c6final_eq 3 (by norm_num), c6shelf_eq]
    norm_num [applyOffsets, PIsland.minU, PIsland.minV,
      Function.update, c6uvs]

/-- Witness instantiating the amended C6 theorem on the counterexample
mesh. -/
theorem claim_C6_witness :
    (0 : ℚ) < 1/10 ∧
    List.Pairwise
      (fun p q : PIsland × ℚ × ℚ => p.2.2 = q.2.2 →
        p.2.1 + p.1.width + 1/10 ≤ q.2.1 ∧
        (p.2.1 + p.1.width) * packScale (placeIslands (1/10)
            ((buildIslands c6uvs c6tris c6fids 3).2.insertionSort
              packLE)) +
          (1/10) * packScale (placeIslands (1/10)
            ((buildIslands c6uvs c6tris c6fids 3).2.insertionSort
              packLE)) ≤
          q.2.1 * packScale (placeIslands (1/10)
            ((buildIslands c6uvs c6tris c6fids 3).2.insertionSort
              packLE)) ∧
        0 < (1/10 : ℚ) * packScale (placeIslands (1/10)
          ((buildIslands c6uvs c6tris c6fids 3).2.insertionSort
            packLE)))
      (placeIslands (1/10)
        ((buildIslands c6uvs c6tris c6fids 3).2.insertionSort
          packLE)).placed :=
  ⟨by norm_num,
    claim_C6_amended 9 c6tris c6uvs c6fids 3 (1/10) (by norm_num)⟩

/-- Witness instantiating the C3 containment theorem on the
three-island mesh. -/
theorem claim_C3_witness :
    (1 < 3) ∧ ((0 : ℚ) ≤ 1/10) ∧
    (0 ≤ (pack_uv_islands 9 c6tris c6uvs c6fids 3 (1/10) 4).1 ∧
     (pack_uv_islands 9 c6tris c6uvs c6fids 3 (1/10) 4).1 ≤ 1 ∧
     0 ≤ (pack_uv_islands 9 c6tris c6uvs c6fids 3 (1/10) 4).2 ∧
     (pack_uv_islands 9 c6tris c6uvs c6fids 3 (1/10) 4).2 ≤ 1) :=
  ⟨by norm_num, by norm_num,
    claim_C3_packed_unit_square 9 c6tris c6uvs c6fids 3 (1/10)
      (by norm_num) (by norm_num)
      (by
        intro v hv hall
        exfalso
        have hplaced : (placeIslands (1/10)
            ((buildIslands c6uvs c6tris c6fids 3).2.insertionSort
              packLE)).placed =
            [(⟨0, some (0, 2/5, 0, 1), [0, 1, 2]⟩, 0, 0),
             (⟨1, some (0, 2/5, 0, 1), [3, 4, 5]⟩, 1/2, 0),
             (⟨2, some (0, 1/2, 0, 1/2), [6, 7, 8]⟩, 0, 11/10)] := by
          rw [show placeIslands (1/10)
              ((buildIslands c6uvs c6tris c6fids 3).2.insertionSort
                packLE) = c6shelf from rfl, c6shelf_eq]
        rw [hplaced] at hall
        interval_cases v <;>
          first
            | exact hall (⟨0, some (0, 2/5, 0, 1), [0, 1, 2]⟩, 0, 0)
                (by simp) (by decide)
            | exact hall (⟨1, some (0, 2/5, 0, 1), [3, 4, 5]⟩, 1/2, 0)
                (by simp) (by decide)
            | exact hall (⟨2, some (0, 1/2, 0, 1/2), [6, 7, 8]⟩, 0, 11/10)
                (by simp) (by decide))
      4 (by norm_num)⟩

/-- The inner vertex loop of STEP 1 never touches the assignment of a
vertex outside the face. -/
theorem innerAssign_not_mem (uvs : ℕ → ℚ × ℚ) (i : ℕ) :
    ∀ (vs : List ℕ) (st : (ℕ → Option ℕ) × List PIsland) (v : ℕ), v ∉ vs →
      (vs.foldl
        (fun st2 w =>
          match st2.1 w with
          | some _ => st2
          | none =>
              (Function.update st2.1 w (some i), claimVert uvs st2.2 i w))
        st).1 v = st.1 v := by
  intro vs
  induction vs with
  | nil => intro st v _; rfl
  | cons w vs ih =>
      intro st v hv
      have hvw : v ≠ w := fun h => hv (h ▸ List.mem_cons_self w vs)
      have hvs : v ∉ vs := fun h => hv (List.mem_cons_of_mem w h)
      rw [List.foldl_cons]
      cases hw : st.1 w with
      | some j =>
          rw [ih _ v hvs]
      | none =>
          rw [ih _ v hvs]
          exact Function.update_noteq hvw _ _

/-- The inner vertex loop of STEP 1 never overwrites an existing
assignment. -/
theorem innerAssign_preserve (uvs : ℕ → ℚ × ℚ) (i : ℕ) :
    ∀ (vs : List ℕ) (st : (ℕ → Option ℕ) × List PIsland) (v j : ℕ),
      st.1 v = some j →
      (vs.foldl
        (fun st2 w =>
          match st2.1 w with
          | some _ => st2
          | none =>
              (Function.update st2.1 w (some i), claimVert uvs st2.2 i w))
        st).1 v = some j := by
  intro vs
  induction vs with
  | nil => intro st v j h; exact h
  | cons w vs ih =>
      intro st v j h
      rw [List.foldl_cons]
      cases hw : st.1 w with
      | some k => exact ih _ v j h
      | none =>
          refine ih _ v j ?_
          have hvw : v ≠ w := by
            intro he
            rw [he, hw] at h
            exact Option.noConfusion h
          show Function.update st.1 w (some i) v = some j
          rw [Function.update_noteq hvw]
          exact h

/-- The inner vertex loop of STEP 1 assigns an unclaimed vertex of the
face to the face's island. -/
theorem innerAssign_mem (uvs : ℕ → ℚ × ℚ) (i : ℕ) :
    ∀ (vs : List ℕ) (st : (ℕ → Option ℕ) × List PIsland) (v : ℕ),
      v ∈ vs → st.1 v = none →
      (vs.foldl
        (fun st2 w =>
          match st2.1 w with
          | some _ => st2
          | none =>
              (Function.update st2.1 w (some i), claimVert uvs st2.2 i w))
        st).1 v = some i := by
  intro vs
  induction vs with
  | nil => intro st v hv; exact absurd hv (List.not_mem_nil v)
  | cons w vs ih =>
      intro st v hv h
      rw [List.foldl_cons]
      by_cases hvw : v = w
      · subst hvw
        rw [h]
        refine innerAssign_preserve uvs i vs _ v i ?_
        show Function.update st.1 v (some i) v = some i
        rw [Function.update_same]
      · have hvv : v ∈ vs := by
          rcases List.mem_cons.mp hv with h' | h'
          · exact absurd h' hvw
          · exact h'
        cases hw : st.1 w with
        | some k => exact ih _ v hvv h
        | none =>
            refine ih _ v hvv ?_
            show Function.update st.1 w (some i) v = none
            rw [Function.update_noteq hvw]
            exact h

/-- The face loop of STEP 1 never overwrites an existing assignment. -/
theorem buildAssign_preserve (uvs : ℕ → ℚ × ℚ) (fids : ℕ → ℤ) (n : ℕ) :
    ∀ (l : List (ℕ × ℕ × ℕ × ℕ)) (st : (ℕ → Option ℕ) × List PIsland)
      (v j : ℕ), st.1 v = some j →
      (l.foldl
        (fun st p =>
          if 0 ≤ fids p.1 ∧ fids p.1 < (n : ℤ) then
            [p.2.1, p.2.2.1, p.2.2.2].foldl
              (fun st2 w =>
                match st2.1 w with
                | some _ => st2
                | none =>
                    (Function.update st2.1 w (some (fids p.1).toNat),
                     claimVert uvs st2.2 (fids p.1).toNat w))
              st
          else st)
        st).1 v = some j := by
  intro l
  induction l with
  | nil => intro st v j h; exact h
  | cons p l ih =>
      intro st v j h
      rw [List.foldl_cons]
      by_cases hc : 0 ≤ fids p.1 ∧ fids p.1 < (n : ℤ)
      · rw [if_pos hc]
        exact ih _ v j (innerAssign_preserve uvs _ _ st v j h)
      · rw [if_neg hc]
        exact ih _ v j h

/-- The face loop of STEP 1 assigns an unclaimed vertex to the island
of the first valid face referencing it, and leaves it unclaimed when no
valid face does. -/
theorem buildAssign_find (uvs : ℕ → ℚ × ℚ) (fids : ℕ → ℤ) (n : ℕ) :
    ∀ (l : List (ℕ × ℕ × ℕ × ℕ)) (st : (ℕ → Option ℕ) × List PIsland)
      (v : ℕ), st.1 v = none →
      (l.foldl
        (fun st p =>
          if 0 ≤ fids p.1 ∧ fids p.1 < (n : ℤ) then
            [p.2.1, p.2.2.1, p.2.2.2].foldl
              (fun st2 w =>
                match st2.1 w with
                | some _ => st2
                | none =>
                    (Function.update st2.1 w (some (fids p.1).toNat),
                     claimVert uvs st2.2 (fids p.1).toNat w))
              st
          else st)
        st).1 v =
      (l.find? (fun p =>
        decide ((0 ≤ fids p.1 ∧ fids p.1 < (n : ℤ)) ∧
          (v = p.2.1 ∨ v = p.2.2.1 ∨ v = p.2.2.2)))).map
        (fun p => (fids p.1).toNat) := by
  intro l
  induction l with
  | nil => intro st v h; exact h
  | cons p l ih =>
      intro st v h
      rw [List.foldl_cons]
      by_cases hc : 0 ≤ fids p.1 ∧ fids p.1 < (n : ℤ)
      · by_cases hv : v = p.2.1 ∨ v = p.2.2.1 ∨ v = p.2.2.2
        · have hfind : ((p :: l).find? (fun p =>
              decide ((0 ≤ fids p.1 ∧ fids p.1 < (n : ℤ)) ∧
                (v = p.2.1 ∨ v = p.2.2.1 ∨ v = p.2.2.2)))) = some p := by
            apply List.find?_cons_of_pos
            exact decide_eq_true ⟨hc, hv⟩
          rw [hfind]
          rw [if_pos hc]
          have hmem : v ∈ [p.2.1, p.2.2.1, p.2.2.2] := by
            rcases hv with h' | h' | h' <;> simp [h']
          rw [buildAssign_preserve uvs fids n l _ v (fids p.1).toNat
            (innerAssign_mem uvs _ _ st v hmem h)]
          rfl
        · have hfind : ((p :: l).find? (fun p =>
              decide ((0 ≤ fids p.1 ∧ fids p.1 < (n : ℤ)) ∧
                (v = p.2.1 ∨ v = p.2.2.1 ∨ v = p.2.2.2)))) =
              (l.find? (fun p =>
                decide ((0 ≤ fids p.1 ∧ fids p.1 < (n : ℤ)) ∧
                  (v = p.2.1 ∨ v = p.2.2.1 ∨ v = p.2.2.2)))) := by
            apply List.find?_cons_of_neg
            simp only [decide_eq_true_eq]
            intro hcontra
            exact hv hcontra.2
          rw [hfind]
          rw [if_pos hc]
          refine ih _ v ?_
          have hvnot : v ∉ [p.2.1, p.2.2.1, p.2.2.2] := by
            intro hmem
            refine hv ?_
            rcases List.mem_cons.mp hmem with h' | hmem
            · exact Or.inl h'
            rcases List.mem_cons.mp hmem with h' | hmem
            · exact Or.inr (Or.inl h')
            rcases List.mem_cons.mp hmem with h' | hmem
            · exact Or.inr (Or.inr h')
            · exact absurd hmem (List.not_mem_nil v)
          rw [innerAssign_not_mem uvs _ _ st v hvnot]
          exact h
      · have hfind : ((p :: l).find? (fun p =>
            decide ((0 ≤ fids p.1 ∧ fids p.1 < (n : ℤ)) ∧
              (v = p.2.1 ∨ v = p.2.2.1 ∨ v = p.2.2.2)))) =
            (l.find? (fun p =>
              decide ((0 ≤ fids p.1 ∧ fids p.1 < (n : ℤ)) ∧
                (v = p.2.1 ∨ v = p.2.2.1 ∨ v = p.2.2.2)))) := by
          apply List.find?_cons_of_neg
          simp only [decide_eq_true_eq]
          intro hcontra
          exact hc hcontra.1
        rw [hfind]
        rw [if_neg hc]
        exact ih _ v h

/-- claim C10: a vertex referenced by a valid face is assigned to the
island of the lowest-indexed valid face referencing it; it appears in
that island's vertex list and no other's, that island's bounding box is
folded exactly from its own vertex list, and the packing translation of
STEP 4 is applied to the vertex exactly once, by its own island's
offset. -/
theorem claim_C10_vertex_single_island (tris : List (ℕ × ℕ × ℕ))
    (uvs : ℕ → ℚ × ℚ) (fids : ℕ → ℤ) (n : ℕ) (margin : ℚ) (v : ℕ) :
    ((buildIslands uvs tris fids n).1 v =
      (tris.enum.find? (fun p =>
        decide ((0 ≤ fids p.1 ∧ fids p.1 < (n : ℤ)) ∧
          (v = p.2.1 ∨ v = p.2.2.1 ∨ v = p.2.2.2)))).map
        (fun p => (fids p.1).toNat)) ∧
    (∀ i, i < n →
      ((buildIslands uvs tris fids n).1 v = some i ↔
        v ∈ (islAt (buildIslands uvs tris fids n).2 i).verts)) ∧
    (∀ i, i < n → (islAt (buildIslands uvs tris fids n).2 i).box =
      (islAt (buildIslands uvs tris fids n).2 i).verts.foldl
        (fun bx w => boxUpdate bx (uvs w)) none) ∧
    (∀ p ∈ (placeIslands margin
        ((buildIslands uvs tris fids n).2.insertionSort packLE)).placed,
      v ∈ p.1.verts →
      applyOffsets uvs (placeIslands margin
          ((buildIslands uvs tris fids n).2.insertionSort packLE)).placed
        v =
        ((uvs v).1 + (p.2.1 - p.1.minU), (uvs v).2 + (p.2.2 - p.1.minV))) := by
  have hinv := buildIslands_inv uvs tris fids n
  refine ⟨?_, ?_, ?_, ?_⟩
  · unfold buildIslands
    exact buildAssign_find uvs fids n tris.enum _ v rfl
  · intro i hi
    constructor
    · exact fun h => hinv.2.2.2.1 v i h
    · exact fun h => hinv.2.2.1 i hi v h
  · exact fun i hi => hinv.2.2.2.2.2 i hi
  · intro p hp hv
    have hp1 := placed_fst_mem uvs tris fids n margin hp
    obtain ⟨hplt, hpeq⟩ := mem_islands_eq_islAt hinv hp1
    have hnd : p.1.verts.Nodup := by
      have := hinv.2.2.2.2.1 p.1.idx hplt
      rw [hpeq] at this
      exact this
    refine applyOffsets_once _ uvs v p hp hv hnd ?_ ?_
    · intro q hq hqp hvq
      exact hqp (placed_owner_unique uvs tris fids n margin hp hq hv hvq)
    · exact (placed_nodup uvs tris fids n margin).of_map

end Unwrap
